import Mathlib

/-!
# Tiled Mandelbrot renderer with a grain-size sweep (`main_par.cpp`)

A shallow embedding of `master_projects/bologna/cshep_exam_project/main_par.cpp`:

* `mandelbrot`, `to_color` — the two free functions of the file;
* `blocked_range`, `blocked_range2d`, `simple_partition` — the range-splitting
  protocol that `tbb::parallel_for` runs with `tbb::simple_partitioner`
  (oneTBB `blocked_range.h`, `blocked_range2d.h`, `partitioner.h`);
* `Image` — the part of `sf::Image` used by the program (`create`, `setPixel`);
* `tile_body`, `parallel_for`, `sweep`, `main` — the body of the lambda and the
  benchmark loop of `main`.

The second part (namespace `life`) embeds `World`, `neighbours_alive` and
`evolve` of `bachelor_projects/game_of_life/world.hpp`.

`double` and `std::complex<double>` arithmetic is not interpreted: every
definition takes the arithmetic as a parameter (`Arith`), so that each result
holds for whatever the machine operations compute.  `exactArith` is the
instance with exact rational arithmetic.
-/

namespace MandelbrotPar

/-! ## Arithmetic of `double` and `Complex = std::complex<double>` -/

/-- The operations on `double` (carrier `R`) and `std::complex<double>`
(carrier `C`) that the program uses. -/
structure Arith (R C : Type) where
  /-- Floating literal such as `4.` or `-2.2` -/
  lit : ℚ → R
  /-- Conversion `int → double` -/
  ofInt : Int → R
  /-- Subtraction `a - b` on `double` -/
  sub : R → R → R
  /-- Product `a * b` on `double` -/
  mul : R → R → R
  /-- Quotient `a / b` on `double` -/
  div : R → R → R
  /-- Comparison `a < b` on `double` -/
  lt : R → R → Bool
  /-- Construction `Complex{re, im}` -/
  cplx : R → R → C
  /-- Real part `z.real()` -/
  real : C → R
  /-- Imaginary part `z.imag()` -/
  imag : C → R
  /-- Sum `z + w` on `Complex` -/
  cadd : C → C → C
  /-- Difference `z - w` on `Complex` -/
  csub : C → C → C
  /-- Product `z * w` on `Complex` -/
  cmul : C → C → C
  /-- Squared magnitude `norm(z)` -/
  norm : C → R

/-- Exact arithmetic: `double` read as `ℚ`, `Complex` as pairs of rationals. -/
def exactArith : Arith ℚ (ℚ × ℚ) where
  lit := fun q => q
  ofInt := fun n => (n : ℚ)
  sub := fun a b => a - b
  mul := fun a b => a * b
  div := fun a b => a / b
  lt := fun a b => decide (a < b)
  cplx := fun a b => (a, b)
  real := fun z => z.1
  imag := fun z => z.2
  cadd := fun z w => (z.1 + w.1, z.2 + w.2)
  csub := fun z w => (z.1 - w.1, z.2 - w.2)
  cmul := fun z w => (z.1 * w.1 - z.2 * w.2, z.1 * w.2 + z.2 * w.1)
  norm := fun z => z.1 * z.1 + z.2 * z.2

/-! ## `mandelbrot` and `to_color` -/

/-- The `for` loop of `mandelbrot`: `for (; i != 256 && norm(z) < 4.; ++i) z = z * z + c;`
followed by `return i`.  The counter starts at `0` and the loop is entered only
with `i ≤ 256`, which is what makes it terminate. -/
def mandelbrot_loop {R C : Type} (A : Arith R C) (c : C) (i : Nat) (hi : i ≤ 256) (z : C) : Nat :=
  if h : i ≠ 256 ∧ A.lt (A.norm z) (A.lit 4) = true then
    mandelbrot_loop A c (i + 1) (by omega) (A.cadd (A.cmul z z) c)
  else i
termination_by 256 - i
decreasing_by omega

/-- Function `int mandelbrot(Complex const& c)`. -/
def mandelbrot {R C : Type} (A : Arith R C) (c : C) : Int :=
  (mandelbrot_loop A c 0 (by decide) c : Nat)

/-- Type `sf::Color`: four `Uint8` channels. -/
structure Color where
  r : Nat
  g : Nat
  b : Nat
  a : Nat
deriving DecidableEq

/-- Constant `sf::Color::Black`. -/
def Color.Black : Color := ⟨0, 0, 0, 255⟩

/-- Constant `sf::Color::White`. -/
def Color.White : Color := ⟨255, 255, 255, 255⟩

/-- Cast `static_cast<sf::Uint8>(n)`: reduction modulo `2^8`. -/
def toUint8 (n : Int) : Nat := (n % 256).toNat

/-- Function `auto to_color(int k)`; `sf::Color{r, g, b}` has alpha 255. -/
def to_color (k : Int) : Color :=
  if k < 256 then ⟨toUint8 (10 * k), 0, 0, 255⟩ else Color.Black

/-! ## `tbb::blocked_range`, `tbb::blocked_range2d`, `tbb::simple_partitioner` -/

/-- Conversion `size_t(n)` of an `int` argument (64-bit `size_t`). -/
def toSizeT (n : Int) : Nat := (n % 2 ^ 64).toNat

/-- Type `tbb::blocked_range<int>`: the half-open interval `[my_begin, my_end)` and
its grain size.  All bounds in this program lie in `[0, display_height]` or
`[0, display_width]`, so they are kept as natural numbers. -/
structure blocked_range where
  my_end : Nat
  my_begin : Nat
  my_grainsize : Nat
deriving DecidableEq

namespace blocked_range

/-- Method `size()`: `size_type(my_end - my_begin)`. -/
def size (r : blocked_range) : Nat := r.my_end - r.my_begin

/-- Method `is_divisible()`: `my_grainsize < size()`. -/
def is_divisible (r : blocked_range) : Bool := decide (r.my_grainsize < r.size)

/-- Method `do_split(r, split)`: `middle = r.my_begin + (r.my_end - r.my_begin) / 2u`;
`r` keeps `[my_begin, middle)` and the new range is `[middle, my_end)`.
The pair is (what `r` becomes, the new range). -/
def do_split (r : blocked_range) : blocked_range × blocked_range :=
  let middle := r.my_begin + (r.my_end - r.my_begin) / 2
  ({ r with my_end := middle }, { r with my_begin := middle })

end blocked_range

/-- Type `tbb::blocked_range2d<int>`. -/
structure blocked_range2d where
  my_rows : blocked_range
  my_cols : blocked_range
deriving DecidableEq

namespace blocked_range2d

/-- The constructor `blocked_range2d(row_begin, row_end, row_grainsize,
col_begin, col_end, col_grainsize)`, called with `int` grain sizes. -/
def make (row_begin row_end : Nat) (row_grainsize : Int)
    (col_begin col_end : Nat) (col_grainsize : Int) : blocked_range2d :=
  { my_rows := ⟨row_end, row_begin, toSizeT row_grainsize⟩
    my_cols := ⟨col_end, col_begin, toSizeT col_grainsize⟩ }

/-- Method `is_divisible()`: `my_rows.is_divisible() || my_cols.is_divisible()`. -/
def is_divisible (r : blocked_range2d) : Bool :=
  r.my_rows.is_divisible || r.my_cols.is_divisible

/-- The splitting constructor `blocked_range2d(r, split)` with `do_split`:
the columns are halved when
`my_rows.size() * double(my_cols.grainsize()) < my_cols.size() * double(my_rows.grainsize())`,
the rows otherwise.  The pair is (what `r` becomes, the new range). -/
def do_split (r : blocked_range2d) : blocked_range2d × blocked_range2d :=
  if r.my_rows.size * r.my_cols.my_grainsize < r.my_cols.size * r.my_rows.my_grainsize then
    ({ r with my_cols := r.my_cols.do_split.1 }, { r with my_cols := r.my_cols.do_split.2 })
  else
    ({ r with my_rows := r.my_rows.do_split.1 }, { r with my_rows := r.my_rows.do_split.2 })

end blocked_range2d

/-- The ranges on which `tbb::simple_partitioner` runs the body: a range is
split while it is divisible (`while (range.is_divisible()) offer the split-off
half as a new task`), and the body runs on each range that is no longer
divisible.  `fuel` bounds the depth of splitting; `none` means the bound was
reached.  The list is in left-to-right order of the splitting tree. -/
def simple_partition : Nat → blocked_range2d → Option (List blocked_range2d)
  | 0, _ => none
  | fuel + 1, r =>
    if r.is_divisible then
      match simple_partition fuel r.do_split.1, simple_partition fuel r.do_split.2 with
      | some l, some m => some (l ++ m)
      | _, _ => none
    else some [r]

/-! ## `sf::Image` -/

/-- Type `sf::Image`: its size and its pixels in row-major order. -/
structure Image where
  m_size_x : Nat
  m_size_y : Nat
  m_pixels : List Color
deriving DecidableEq

namespace Image

/-- Method `create(width, height)`: every pixel is `Color(0, 0, 0)`. -/
def create (width height : Nat) : Image :=
  ⟨width, height, List.replicate (width * height) Color.Black⟩

/-- Method `setPixel(x, y, color)`: writes the pixel at index `x + y * m_size.x`. -/
def setPixel (img : Image) (x y : Nat) (color : Color) : Image :=
  { img with m_pixels := img.m_pixels.set (x + y * img.m_size_x) color }

/-- Method `getPixel(x, y)`: reads the pixel at index `x + y * m_size.x`. -/
def getPixel (img : Image) (x y : Nat) : Color :=
  img.m_pixels.getD (x + y * img.m_size_x) Color.Black

end Image

/-! ## `main` -/

/-- The constants of `main`. -/
structure Config (C : Type) where
  display_width : Nat
  display_height : Nat
  top_left : C
  lower_right : C
  grain_sizes : List Int

/-- The values `main` gives them. -/
def main_config {R C : Type} (A : Arith R C) : Config C where
  display_width := 800
  display_height := 800
  top_left := A.cplx (A.lit (-2.2)) (A.lit 1.5)
  lower_right := A.cplx (A.lit 0.8) (A.lit (-1.5))
  grain_sizes := [8, 16, 32, 64, 128, 256]

/-- Constant `delta_x = diff.real() / display_width` with `diff = lower_right - top_left`. -/
def delta_x {R C : Type} (A : Arith R C) (cfg : Config C) : R :=
  A.div (A.real (A.csub cfg.lower_right cfg.top_left)) (A.ofInt cfg.display_width)

/-- Constant `delta_y = diff.imag() / display_height`. -/
def delta_y {R C : Type} (A : Arith R C) (cfg : Config C) : R :=
  A.div (A.imag (A.csub cfg.lower_right cfg.top_left)) (A.ofInt cfg.display_height)

/-- Point `top_left + Complex{delta_x * column, delta_y * row}` of a pixel. -/
def pixel_point {R C : Type} (A : Arith R C) (cfg : Config C) (column row : Nat) : C :=
  A.cadd cfg.top_left
    (A.cplx (A.mul (delta_x A cfg) (A.ofInt column)) (A.mul (delta_y A cfg) (A.ofInt row)))

/-- Loop `for (int v = b; v < e; ++v) s = step v s`. -/
def for_loop {σ : Type} (b e : Nat) (step : Nat → σ → σ) (s : σ) : σ :=
  (List.range (e - b)).foldl (fun acc k => step (b + k) acc) s

/-- Constant `gridColor`, `sf::Color::White`. -/
def gridColor : Color := Color.White

/-- What the tasks of one `parallel_for` share: the image and `task_count`. -/
structure RenderState where
  image : Image
  task_count : Int
deriving DecidableEq

/-- The lambda passed to `parallel_for`, run on one range. -/
def tile_body {R C : Type} (A : Arith R C) (cfg : Config C) (range : blocked_range2d)
    (st : RenderState) : RenderState :=
  let rows := range.my_rows
  let cols := range.my_cols
  let img1 := for_loop rows.my_begin rows.my_end (fun row img =>
    for_loop cols.my_begin cols.my_end (fun column img =>
      img.setPixel column row (to_color (mandelbrot A (pixel_point A cfg column row)))) img)
    st.image
  let img2 := for_loop cols.my_begin cols.my_end (fun column img =>
    img.setPixel column rows.my_begin gridColor) img1
  let img3 := for_loop rows.my_begin rows.my_end (fun row img =>
    img.setPixel cols.my_begin row gridColor) img2
  { image := img3, task_count := st.task_count + 1 }

/-- The bodies of a list of ranges run one after another, in list order. -/
def run_tiles {R C : Type} (A : Arith R C) (cfg : Config C) (tiles : List blocked_range2d)
    (st : RenderState) : RenderState :=
  tiles.foldl (fun s t => tile_body A cfg t s) st

/-- The range `main` hands to `parallel_for` for one grain size. -/
def main_range {C : Type} (cfg : Config C) (grain : Int) : blocked_range2d :=
  blocked_range2d.make 0 cfg.display_height grain 0 cfg.display_width grain

/-- Call `tbb::parallel_for(range, body, simple_partitioner())`, with the tasks
run in the left-to-right order of the splitting tree. -/
def parallel_for {R C : Type} (A : Arith R C) (cfg : Config C) (fuel : Nat)
    (range : blocked_range2d) (st : RenderState) : Option RenderState :=
  (simple_partition fuel range).map (fun tiles => run_tiles A cfg tiles st)

/-- One line of `results.txt` after the header. -/
structure ReportRow (R : Type) where
  grain : Int
  elapsed_time : R
  task_count : Int

/-- State of the sweep: the image, the rows written so far, and the number of
clock readings taken so far. -/
structure SweepState (R : Type) where
  image : Image
  results : List (ReportRow R)
  ticks_read : Nat

/-- One iteration of `for (int grain : grain_sizes)`.  `now k` is the value of
the `k`-th call of `tbb::tick_count::now()`. -/
def sweep_step {R C : Type} (A : Arith R C) (cfg : Config C) (now : Nat → R) (fuel : Nat)
    (s : SweepState R) (grain : Int) : Option (SweepState R) :=
  let start := now s.ticks_read
  match parallel_for A cfg fuel (main_range cfg grain) { image := s.image, task_count := 0 } with
  | none => none
  | some st =>
    let stop := now (s.ticks_read + 1)
    some { image := st.image
           results := s.results ++ [⟨grain, A.sub stop start, st.task_count⟩]
           ticks_read := s.ticks_read + 2 }

/-- The loop `for (int grain : grain_sizes)` over a list of grain sizes. -/
def sweep {R C : Type} (A : Arith R C) (cfg : Config C) (now : Nat → R) (fuel : Nat) :
    List Int → SweepState R → Option (SweepState R)
  | [], s => some s
  | grain :: rest, s =>
    match sweep_step A cfg now fuel s grain with
    | none => none
    | some s1 => sweep A cfg now fuel rest s1

/-- What `main` leaves behind: the rows of `results.txt` and the image saved
to `mandelbrot.png`. -/
structure MainOutput (R : Type) where
  results : List (ReportRow R)
  saved_image : Image

/-- The program for a configuration: `image.create`, the sweep, `saveToFile`. -/
def run_main {R C : Type} (A : Arith R C) (cfg : Config C) (now : Nat → R) (fuel : Nat) :
    Option (MainOutput R) :=
  (sweep A cfg now fuel cfg.grain_sizes
    { image := Image.create cfg.display_width cfg.display_height, results := [], ticks_read := 0 }).map
    (fun s => { results := s.results, saved_image := s.image })

/-- Function `int main()`. -/
def main {R C : Type} (A : Arith R C) (now : Nat → R) (fuel : Nat) : Option (MainOutput R) :=
  run_main A (main_config A) now fuel

/-! ## Vocabulary for stating the properties -/

/-- Pixel `(row, col)` lies in the rectangle of a range. -/
def blocked_range2d.contains (t : blocked_range2d) (row col : Nat) : Bool :=
  decide (t.my_rows.my_begin ≤ row ∧ row < t.my_rows.my_end ∧
    t.my_cols.my_begin ≤ col ∧ col < t.my_cols.my_end)

/-- Number of pixels of the rectangle of a range. -/
def blocked_range2d.area (t : blocked_range2d) : Nat := t.my_rows.size * t.my_cols.size

/-- The fuel that is always enough to split a range down to its tiles. -/
def enough_fuel (r : blocked_range2d) : Nat := r.my_rows.size + r.my_cols.size + 1

/-- The chunks into which repeated halving cuts one dimension: a
`blocked_range` is halved while it is divisible, as `simple_partitioner` does
with a one-dimensional range (the grain size is positive by the precondition
of the constructor). -/
def halving_chunks (r : blocked_range) : List blocked_range :=
  if _h : r.is_divisible = true ∧ 1 ≤ r.my_grainsize then
    halving_chunks r.do_split.1 ++ halving_chunks r.do_split.2
  else [r]
termination_by r.size
decreasing_by
  · simp only [blocked_range.is_divisible, decide_eq_true_eq] at _h
    have e : r.do_split.1.size = r.size / 2 := by
      show r.my_begin + (r.my_end - r.my_begin) / 2 - r.my_begin = (r.my_end - r.my_begin) / 2
      omega
    omega
  · simp only [blocked_range.is_divisible, decide_eq_true_eq] at _h
    have e : r.do_split.2.size = r.size - r.size / 2 := by
      show r.my_end - (r.my_begin + (r.my_end - r.my_begin) / 2) =
        (r.my_end - r.my_begin) - (r.my_end - r.my_begin) / 2
      omega
    omega

/-- Cross product of a list of row chunks and a list of column chunks. -/
def tile_grid : List blocked_range → List blocked_range → List blocked_range2d
  | [], _ => []
  | a :: rows, cols => cols.map (fun b => ⟨a, b⟩) ++ tile_grid rows cols

/-- The chunks of a list follow one another from `a` to `b` without gap or
overlap. -/
def consecutive : Nat → List blocked_range → Nat → Prop
  | a, [], b => a = b
  | a, c :: cs, b => c.my_begin = a ∧ consecutive c.my_end cs b

/-- The quotient `ceil(n / g)`. -/
def ceil_div (n g : Nat) : Nat := (n + g - 1) / g

/-- Both grain sizes of a range are positive (the precondition of the
`blocked_range` constructor). -/
def blocked_range2d.grains_pos (r : blocked_range2d) : Prop :=
  1 ≤ r.my_rows.my_grainsize ∧ 1 ≤ r.my_cols.my_grainsize

/-- The range `t` is a non-empty rectangle inside `[0, H) × [0, W)`. -/
def blocked_range2d.within (t : blocked_range2d) (H W : Nat) : Prop :=
  t.my_rows.my_begin < t.my_rows.my_end ∧ t.my_rows.my_end ≤ H ∧
  t.my_cols.my_begin < t.my_cols.my_end ∧ t.my_cols.my_end ≤ W

/-- The image has the size of the raster `W × H` and one pixel per position. -/
def Image.valid (img : Image) (W H : Nat) : Prop :=
  img.m_size_x = W ∧ img.m_size_y = H ∧ img.m_pixels.length = W * H

/-- The colour the body of tile `t` leaves at a pixel `(x, y)` of `t`: the grid
colour on the first row and first column of the tile, the colour of the
escape time elsewhere. -/
def tile_color {R C : Type} (A : Arith R C) (cfg : Config C) (t : blocked_range2d)
    (x y : Nat) : Color :=
  if y = t.my_rows.my_begin ∨ x = t.my_cols.my_begin then gridColor
  else to_color (mandelbrot A (pixel_point A cfg x y))

/-- On images of width `W`, the operation `T` keeps the size, gives every pixel
whose index `j` is in the region `P` the colour `col j`, and leaves every
other pixel as it was. -/
def Paints (W : Nat) (T : Image → Image) (P : Nat → Prop) (col : Nat → Color) : Prop :=
  ∀ img : Image, img.m_size_x = W →
    (T img).m_size_x = W ∧ (T img).m_size_y = img.m_size_y ∧
    (T img).m_pixels.length = img.m_pixels.length ∧
    ∀ j, (P j → j < img.m_pixels.length → (T img).m_pixels[j]? = some (col j)) ∧
      (¬ P j → (T img).m_pixels[j]? = img.m_pixels[j]?)

/-- The tiles of the decomposition `main` makes for one grain size. -/
def tiles_of {C : Type} (cfg : Config C) (grain : Int) : List blocked_range2d :=
  (simple_partition (enough_fuel (main_range cfg grain)) (main_range cfg grain)).getD []

/-- One render of the raster with one grain size into a freshly created image. -/
def fresh_render {R C : Type} (A : Arith R C) (cfg : Config C) (grain : Int) : RenderState :=
  run_tiles A cfg (tiles_of cfg grain)
    { image := Image.create cfg.display_width cfg.display_height, task_count := 0 }

/-- The rows a sweep over the grain sizes `gs` writes when `k` clock readings
have been taken before it: the grain size, the difference of the two clock
readings around the run, and the number of tiles of that run. -/
def expected_rows {R C : Type} (A : Arith R C) (cfg : Config C) (now : Nat → R) :
    Nat → List Int → List (ReportRow R)
  | _, [] => []
  | k, g :: gs =>
    ⟨g, A.sub (now (k + 1)) (now k), (tiles_of cfg g).length⟩ :: expected_rows A cfg now (k + 2) gs

/-- The image a sweep over `gs` ends with: the fresh render of the last grain
size, or the image it started with when there is no grain size. -/
def final_image {R C : Type} (A : Arith R C) (cfg : Config C) (img : Image) :
    List Int → Image
  | [] => img
  | g :: gs => final_image A cfg (fresh_render A cfg g).image gs

/-! ## The benchmark harness in the words of the specification -/

/-- One Run and Record of the harness of the specification (§4.7): reset the
counter to 0, allocate a fresh pixel buffer of `W × H`, record the start time,
decompose and schedule, record the end time, append the row. -/
def spec_sweep_step {R C : Type} (A : Arith R C) (cfg : Config C) (now : Nat → R) (fuel : Nat)
    (s : SweepState R) (grain : Int) : Option (SweepState R) :=
  let start := now s.ticks_read
  match parallel_for A cfg fuel (main_range cfg grain)
    { image := Image.create cfg.display_width cfg.display_height, task_count := 0 } with
  | none => none
  | some st =>
    let stop := now (s.ticks_read + 1)
    some { image := st.image
           results := s.results ++ [⟨grain, A.sub stop start, st.task_count⟩]
           ticks_read := s.ticks_read + 2 }

/-- Init, Run, Record and Advance of the specification over the grain sizes. -/
def spec_sweep {R C : Type} (A : Arith R C) (cfg : Config C) (now : Nat → R) (fuel : Nat) :
    List Int → SweepState R → Option (SweepState R)
  | [], s => some s
  | grain :: rest, s =>
    match spec_sweep_step A cfg now fuel s grain with
    | none => none
    | some s1 => spec_sweep A cfg now fuel rest s1

/-- The harness of the specification: the sweep, then Done hands the last
run's buffer to the image sink and the report to the report sink. -/
def spec_harness {R C : Type} (A : Arith R C) (cfg : Config C) (now : Nat → R) (fuel : Nat) :
    Option (MainOutput R) :=
  (spec_sweep A cfg now fuel cfg.grain_sizes
    { image := Image.create cfg.display_width cfg.display_height, results := [], ticks_read := 0 }).map
    (fun s => { results := s.results, saved_image := s.image })

/-- The orbit of `c`: `z_0 = c`, `z_(j+1) = z_j * z_j + c`. -/
def orbit {R C : Type} (A : Arith R C) (c : C) : Nat → C
  | 0 => c
  | j + 1 => A.cadd (A.cmul (orbit A c j) (orbit A c j)) c

/-- The test `norm(z) < 4.` of the loop of `mandelbrot`. -/
def in_bound {R C : Type} (A : Arith R C) (z : C) : Bool := A.lt (A.norm z) (A.lit 4)

end MandelbrotPar

/-! # The game of life on a torus (`world.hpp`)

A shallow embedding of `bachelor_projects/game_of_life/world.hpp`.  A result
`none` stands for a run that gives no result: an `assert` that fails, an
exception, or a loop that does not end.  The arithmetic of `int` is that of
32 bits (`wrap32`). -/

namespace life

/-- The type `enum class Cell : char { Dead, Alive }`. -/
inductive Cell where
  | Dead
  | Alive
deriving DecidableEq

/-- The cast `static_cast<int>(cell)`. -/
def Cell.toInt : Cell → Int
  | Cell.Dead => 0
  | Cell.Alive => 1

/-- The value of an `int` computation whose exact result is `x`: 32-bit two's
complement.  (Signed overflow is undefined in C++; on the usual targets the
result wraps, and that is what is modelled.) -/
def wrap32 (x : Int) : Int := (x + 2147483648) % 4294967296 - 2147483648

/-- The class `World`: the side and the grid, in row-major order. -/
structure World where
  m_side : Int
  m_grid : List Cell
deriving DecidableEq

/-- A `for` loop over the values of a list, in order, whose body may give no
result. -/
def for_list {α σ : Type} (step : α → σ → Option σ) : List α → σ → Option σ
  | [], s => some s
  | a :: l, s => (step a s).bind (for_list step l)

namespace World

/-- The constructor `World(int n)`: `m_side(n), m_grid(m_side * m_side, Cell::Dead)`.
The count `m_side * m_side` is an `int`; a negative count becomes a `size_t`
beyond `max_size()`, and the constructor of the vector throws. -/
def create (n : Int) : Option World :=
  let count := wrap32 (n * n)
  if count < 0 then none else some ⟨n, List.replicate count.toNat Cell.Dead⟩

/-- The method `side()`. -/
def side (w : World) : Int := w.m_side

/-- The index computed by `cell(r, c)`, when both assertions hold:
`i = (r + m_side) % m_side`, `j = (c + m_side) % m_side` (the remainder of
C++, which truncates), `index = i * m_side + j`, all in `int`; the second
assertion compares with `static_cast<int>(m_grid.size())`. -/
def index (w : World) (r c : Int) : Option Nat :=
  let i := Int.tmod (wrap32 (r + w.m_side)) w.m_side
  let j := Int.tmod (wrap32 (c + w.m_side)) w.m_side
  if i ≥ 0 ∧ i < w.m_side ∧ j ≥ 0 ∧ j < w.m_side then
    let index := wrap32 (wrap32 (i * w.m_side) + j)
    if index ≥ 0 ∧ index < wrap32 (w.m_grid.length : Int) then some index.toNat else none
  else none

/-- The method `cell(r, c) const`: the element `m_grid[index]`. -/
def cell (w : World) (r c : Int) : Option Cell :=
  (w.index r c).bind (fun k => w.m_grid[k]?)

/-- The assignment `cell(r, c) = v` through the non-const `cell(r, c)`. -/
def set_cell (w : World) (r c : Int) (v : Cell) : Option World :=
  (w.index r c).map (fun k => { w with m_grid := w.m_grid.set k v })

end World

/-- The function `neighbours_alive(world, r, c)`: `-cell(r, c)` plus the cells
at the nine positions `(r + i, c + j)` with `i, j` in `{-1, 0, 1}`.  The sums
`r + i` and `c + j` are `int` sums; `result` stays between -1 and 9. -/
def neighbours_alive (world : World) (r c : Int) : Option Int :=
  (world.cell r c).bind (fun v =>
    for_list (fun i result =>
      for_list (fun j result =>
        (world.cell (wrap32 (r + i)) (wrap32 (c + j))).map (fun x => result + x.toInt))
        [-1, 0, 1] result)
      [-1, 0, 1] (-v.toInt))

/-- The function `evolve(current)`: `World next(N)`, then the two loops.  The
loops `for (int i = 0; i != N; ++i)` do not end when `N < 0`. -/
def evolve (current : World) : Option World :=
  let N := current.side
  (World.create N).bind (fun next0 =>
    if N < 0 then none
    else
      for_list (fun (i : Nat) next =>
        for_list (fun (j : Nat) next =>
          (neighbours_alive current i j).bind (fun c =>
            if c = 3 then next.set_cell i j Cell.Alive
            else if c = 2 then (current.cell i j).bind (fun v => next.set_cell i j v)
            else some next)) (List.range N.toNat) next)
        (List.range N.toNat) next0)

/-! ## Vocabulary for stating the properties of the game of life -/

/-- The world has side `N` and a grid of `N * N` cells, and `N * N` is an
`int`: what every world with a full grid built by the constructor (which
computes `m_side * m_side` in `int`) and changed through `cell` has. -/
def World.wf (w : World) (N : Int) : Prop :=
  w.m_side = N ∧ (w.m_grid.length : Int) = N * N ∧ N * N ≤ 2147483647

/-- The cell of the torus at row `i` and column `j`, both taken modulo the
side. -/
def World.torus (w : World) (i j : Int) : Cell :=
  w.m_grid.getD ((i % w.m_side) * w.m_side + j % w.m_side).toNat Cell.Dead

/-- The number of `Alive` cells among the eight positions around `(i, j)` on
the torus, counted with multiplicity. -/
def alive_around (w : World) (i j : Int) : Int :=
  (w.torus (i - 1) (j - 1)).toInt + (w.torus (i - 1) j).toInt + (w.torus (i - 1) (j + 1)).toInt +
  (w.torus i (j - 1)).toInt + (w.torus i (j + 1)).toInt +
  (w.torus (i + 1) (j - 1)).toInt + (w.torus (i + 1) j).toInt + (w.torus (i + 1) (j + 1)).toInt

/-- The rule of Conway: a cell with `n` neighbours alive is alive in the next
generation when `n = 3`, keeps its state when `n = 2`, and is dead otherwise. -/
def conway (n : Int) (c : Cell) : Cell :=
  if n = 3 then Cell.Alive else if n = 2 then c else Cell.Dead

/-- The cell that the rule of Conway gives to the position of flat index `k`
(row `k / N`, column `k % N`) of the world `w`. -/
def rule_at (w : World) (k : Nat) : Cell :=
  conway (alive_around w ((k / w.m_side.toNat : Nat) : Int) ((k % w.m_side.toNat : Nat) : Int))
    (w.torus ((k / w.m_side.toNat : Nat) : Int) ((k % w.m_side.toNat : Nat) : Int))

/-- The state of `next` in `evolve` when the positions of flat index below `m`
have been visited: they hold the cell of the rule, the others are `Dead`. -/
def evolve_inv (w : World) (N : Int) (m : Nat) (next : World) : Prop :=
  next.wf N ∧ ∀ k, k < N.toNat * N.toNat →
    next.m_grid[k]? = some (if k < m then rule_at w k else Cell.Dead)

end life

namespace MandelbrotPar

/-! ## Splitting one range -/

theorem toSizeT_of_int {g : Int} (h1 : 1 ≤ g) (h2 : g ≤ 2147483647) :
    toSizeT g = g.toNat ∧ 1 ≤ toSizeT g := by
  unfold toSizeT
  have h : g % 2 ^ 64 = g := Int.emod_eq_of_lt (by omega) (by omega)
  rw [h]
  omega

theorem split_contains (r : blocked_range2d) (row col : Nat) :
    r.contains row col = (r.do_split.1.contains row col || r.do_split.2.contains row col) ∧
    (r.do_split.1.contains row col && r.do_split.2.contains row col) = false := by
  unfold blocked_range2d.do_split
  split <;>
  · simp only [blocked_range2d.contains, blocked_range.do_split]
    constructor
    · rw [Bool.eq_iff_iff]
      simp only [Bool.or_eq_true, decide_eq_true_eq]
      omega
    · rw [Bool.and_eq_false_iff]
      simp only [decide_eq_false_iff_not]
      omega

theorem range_split_size (r : blocked_range) :
    r.do_split.1.size = r.size / 2 ∧ r.do_split.2.size = r.size - r.size / 2 ∧
    r.do_split.1.my_grainsize = r.my_grainsize ∧ r.do_split.2.my_grainsize = r.my_grainsize := by
  refine ⟨?_, ?_, rfl, rfl⟩
  · show r.my_begin + (r.my_end - r.my_begin) / 2 - r.my_begin = (r.my_end - r.my_begin) / 2
    omega
  · show r.my_end - (r.my_begin + (r.my_end - r.my_begin) / 2) =
      (r.my_end - r.my_begin) - (r.my_end - r.my_begin) / 2
    omega

/-- With positive grain sizes, a divisible range is split along a dimension
that is itself divisible. -/
theorem split_cases (r : blocked_range2d) (hg : r.grains_pos) (hd : r.is_divisible = true) :
    (r.do_split = ({ r with my_cols := r.my_cols.do_split.1 }, { r with my_cols := r.my_cols.do_split.2 })
      ∧ r.my_cols.is_divisible = true) ∨
    (r.do_split = ({ r with my_rows := r.my_rows.do_split.1 }, { r with my_rows := r.my_rows.do_split.2 })
      ∧ r.my_rows.is_divisible = true) := by
  obtain ⟨hgr, hgc⟩ := hg
  simp only [blocked_range2d.is_divisible, blocked_range.is_divisible, Bool.or_eq_true,
    decide_eq_true_eq] at hd ⊢
  unfold blocked_range2d.do_split
  split
  · rename_i hlt
    left
    refine ⟨rfl, ?_⟩
    by_contra hc
    have hc1 : r.my_cols.size ≤ r.my_cols.my_grainsize := by omega
    have hr1 : r.my_rows.my_grainsize < r.my_rows.size := by omega
    have h1 : r.my_cols.size * r.my_rows.my_grainsize ≤ r.my_cols.my_grainsize * r.my_rows.my_grainsize :=
      Nat.mul_le_mul_right _ hc1
    have h2 : r.my_rows.my_grainsize * r.my_cols.my_grainsize ≤ r.my_rows.size * r.my_cols.my_grainsize :=
      Nat.mul_le_mul_right _ (Nat.le_of_lt hr1)
    have h3 : r.my_cols.my_grainsize * r.my_rows.my_grainsize =
        r.my_rows.my_grainsize * r.my_cols.my_grainsize := Nat.mul_comm _ _
    omega
  · rename_i hlt
    right
    refine ⟨rfl, ?_⟩
    by_contra hc
    have hr1 : r.my_rows.size ≤ r.my_rows.my_grainsize := by omega
    have hc1 : r.my_cols.my_grainsize < r.my_cols.size := by omega
    have h1 : r.my_rows.size * r.my_cols.my_grainsize ≤ r.my_rows.my_grainsize * r.my_cols.my_grainsize :=
      Nat.mul_le_mul_right _ hr1
    have h2 : r.my_cols.my_grainsize * r.my_rows.my_grainsize < r.my_cols.size * r.my_rows.my_grainsize :=
      Nat.mul_lt_mul_of_pos_right hc1 (by omega)
    have h3 : r.my_cols.my_grainsize * r.my_rows.my_grainsize =
        r.my_rows.my_grainsize * r.my_cols.my_grainsize := Nat.mul_comm _ _
    omega

/-- Splitting keeps the grain sizes and strictly lowers `enough_fuel`. -/
theorem split_decreases (r : blocked_range2d) (hg : r.grains_pos) (hd : r.is_divisible = true) :
    r.do_split.1.grains_pos ∧ r.do_split.2.grains_pos ∧
    enough_fuel r.do_split.1 < enough_fuel r ∧ enough_fuel r.do_split.2 < enough_fuel r := by
  have hgp := hg
  obtain ⟨hgr, hgc⟩ := hg
  rcases split_cases r hgp hd with ⟨he, hdiv⟩ | ⟨he, hdiv⟩
  · obtain ⟨s1, s2, g1, g2⟩ := range_split_size r.my_cols
    simp only [blocked_range.is_divisible, decide_eq_true_eq] at hdiv
    rw [he]
    simp only [blocked_range2d.grains_pos, enough_fuel, s1, s2, g1, g2]
    omega
  · obtain ⟨s1, s2, g1, g2⟩ := range_split_size r.my_rows
    simp only [blocked_range.is_divisible, decide_eq_true_eq] at hdiv
    rw [he]
    simp only [blocked_range2d.grains_pos, enough_fuel, s1, s2, g1, g2]
    omega

/-- Splitting terminates: with positive grain sizes, `enough_fuel r` is enough. -/
theorem simple_partition_terminates (fuel : Nat) :
    ∀ r : blocked_range2d, r.grains_pos → enough_fuel r ≤ fuel →
      ∃ tiles, simple_partition fuel r = some tiles := by
  induction fuel with
  | zero => intro r _ h; simp [enough_fuel] at h
  | succ n ih =>
    intro r hg h
    unfold simple_partition
    by_cases hd : r.is_divisible = true
    · obtain ⟨g1, g2, f1, f2⟩ := split_decreases r hg hd
      obtain ⟨l, hl⟩ := ih _ g1 (by omega)
      obtain ⟨m, hm⟩ := ih _ g2 (by omega)
      simp [hd, hl, hm]
    · simp [hd]

/-- The result does not depend on the fuel, once there is one. -/
theorem simple_partition_fuel (fuel : Nat) :
    ∀ (fuel2 : Nat) (r : blocked_range2d) (t1 t2 : List blocked_range2d),
      simple_partition fuel r = some t1 → simple_partition fuel2 r = some t2 → t1 = t2 := by
  induction fuel with
  | zero => intro _ r t1 t2 h; simp [simple_partition] at h
  | succ n ih =>
    intro fuel2 r t1 t2 h1 h2
    cases fuel2 with
    | zero => simp [simple_partition] at h2
    | succ k =>
      unfold simple_partition at h1 h2
      by_cases hd : r.is_divisible = true
      · simp only [hd, if_true] at h1 h2
        cases ha : simple_partition n r.do_split.1 with
        | none => simp [ha] at h1
        | some a =>
          cases hb : simple_partition n r.do_split.2 with
          | none => simp [ha, hb] at h1
          | some b =>
            cases hc : simple_partition k r.do_split.1 with
            | none => simp [hc] at h2
            | some c =>
              cases he : simple_partition k r.do_split.2 with
              | none => simp [hc, he] at h2
              | some e =>
                simp only [ha, hb, hc, he, Option.some.injEq] at h1 h2
                rw [← h1, ← h2, ih _ _ _ _ ha hc, ih _ _ _ _ hb he]
      · simp only [hd, Bool.false_eq_true, if_false, Option.some.injEq] at h1 h2
        rw [← h1, ← h2]

/-- The tiles of a range partition its rectangle: a pixel of the rectangle is
in exactly one tile, any other pixel in none. -/
theorem simple_partition_count (fuel : Nat) :
    ∀ (r : blocked_range2d) (tiles : List blocked_range2d),
      simple_partition fuel r = some tiles →
      ∀ row col, tiles.countP (fun t => t.contains row col) =
        if r.contains row col then 1 else 0 := by
  induction fuel with
  | zero => intro r tiles h; simp [simple_partition] at h
  | succ n ih =>
    intro r tiles h row col
    unfold simple_partition at h
    by_cases hd : r.is_divisible = true
    · simp only [hd, if_true] at h
      cases ha : simple_partition n r.do_split.1 with
      | none => simp [ha] at h
      | some a =>
        cases hb : simple_partition n r.do_split.2 with
        | none => simp [ha, hb] at h
        | some b =>
          simp only [ha, hb, Option.some.injEq] at h
          obtain ⟨h1, h2⟩ := split_contains r row col
          rw [← h, List.countP_append, ih _ _ ha row col, ih _ _ hb row col, h1]
          cases hx : r.do_split.1.contains row col <;>
            cases hy : r.do_split.2.contains row col <;> simp_all
    · simp only [hd, Bool.false_eq_true, if_false, Option.some.injEq] at h
      rw [← h]
      cases hx : r.contains row col <;> simp [List.countP_cons, hx]

theorem split_area (r : blocked_range2d) :
    r.area = r.do_split.1.area + r.do_split.2.area := by
  unfold blocked_range2d.do_split
  split
  · obtain ⟨s1, s2, _, _⟩ := range_split_size r.my_cols
    simp only [blocked_range2d.area, s1, s2]
    rw [← Nat.mul_add]
    congr 1
    omega
  · obtain ⟨s1, s2, _, _⟩ := range_split_size r.my_rows
    simp only [blocked_range2d.area, s1, s2]
    rw [← Nat.add_mul]
    congr 1
    omega

/-- The pixel counts of the tiles of a range add up to its area. -/
theorem simple_partition_area (fuel : Nat) :
    ∀ (r : blocked_range2d) (tiles : List blocked_range2d),
      simple_partition fuel r = some tiles →
      (tiles.map blocked_range2d.area).sum = r.area := by
  induction fuel with
  | zero => intro r tiles h; simp [simple_partition] at h
  | succ n ih =>
    intro r tiles h
    unfold simple_partition at h
    by_cases hd : r.is_divisible = true
    · simp only [hd, if_true] at h
      cases ha : simple_partition n r.do_split.1 with
      | none => simp [ha] at h
      | some a =>
        cases hb : simple_partition n r.do_split.2 with
        | none => simp [ha, hb] at h
        | some b =>
          simp only [ha, hb, Option.some.injEq] at h
          rw [← h, List.map_append, List.sum_append, ih _ _ ha, ih _ _ hb, ← split_area]
    · simp only [hd, Bool.false_eq_true, if_false, Option.some.injEq] at h
      rw [← h]
      simp

theorem split_within (r : blocked_range2d) (hg : r.grains_pos) (hd : r.is_divisible = true)
    (H W : Nat) (hw : r.within H W) : r.do_split.1.within H W ∧ r.do_split.2.within H W := by
  rcases split_cases r hg hd with ⟨he, hdiv⟩ | ⟨he, hdiv⟩ <;>
  · obtain ⟨hg1, hg2⟩ := hg
    simp only [blocked_range.is_divisible, blocked_range.size, decide_eq_true_eq] at hdiv
    rw [he]
    simp only [blocked_range2d.within, blocked_range.do_split] at hw ⊢
    omega

/-- Every tile is a non-empty rectangle inside the raster. -/
theorem simple_partition_within (H W : Nat) (fuel : Nat) :
    ∀ (r : blocked_range2d) (tiles : List blocked_range2d),
      r.grains_pos → r.within H W → simple_partition fuel r = some tiles →
      ∀ t ∈ tiles, t.within H W := by
  induction fuel with
  | zero => intro r tiles _ _ h; simp [simple_partition] at h
  | succ n ih =>
    intro r tiles hg hw h
    unfold simple_partition at h
    by_cases hd : r.is_divisible = true
    · simp only [hd, if_true] at h
      obtain ⟨g1, g2, _, _⟩ := split_decreases r hg hd
      obtain ⟨w1, w2⟩ := split_within r hg hd H W hw
      cases ha : simple_partition n r.do_split.1 with
      | none => simp [ha] at h
      | some a =>
        cases hb : simple_partition n r.do_split.2 with
        | none => simp [ha, hb] at h
        | some b =>
          simp only [ha, hb, Option.some.injEq] at h
          intro t ht
          rw [← h, List.mem_append] at ht
          rcases ht with ht | ht
          · exact ih _ _ g1 w1 ha t ht
          · exact ih _ _ g2 w2 hb t ht
    · simp only [hd, Bool.false_eq_true, if_false, Option.some.injEq] at h
      intro t ht
      rw [← h, List.mem_singleton] at ht
      rw [ht]
      exact hw

/-! ## C1: the tiles partition the raster -/

/-- C1. For every raster `W × H` and every `int` grain size `g ≥ 1`, splitting the
range of `main` terminates with one list of tiles (whatever fuel is given beyond
`H + W + 1`) that partitions `[0,H) × [0,W)`: every pixel of the raster lies
in exactly one tile, a pixel outside the raster in none, and the pixel counts of
the tiles add up to `W * H`. -/
theorem tiles_partition_raster (W H : Nat) (g : Int) (hg1 : 1 ≤ g) (hg2 : g ≤ 2147483647) :
    ∃ tiles : List blocked_range2d,
      (∀ fuel, H + W + 1 ≤ fuel →
        simple_partition fuel (blocked_range2d.make 0 H g 0 W g) = some tiles) ∧
      (∀ row col, tiles.countP (fun t => t.contains row col) =
        if row < H ∧ col < W then 1 else 0) ∧
      (∀ t ∈ tiles, ∀ row col, t.contains row col = true → row < H ∧ col < W) ∧
      (tiles.map blocked_range2d.area).sum = W * H := by
  obtain ⟨hs, hpos⟩ := toSizeT_of_int hg1 hg2
  have hgp : (blocked_range2d.make 0 H g 0 W g).grains_pos := ⟨hpos, hpos⟩
  have hfuel : enough_fuel (blocked_range2d.make 0 H g 0 W g) = H + W + 1 := by
    simp [enough_fuel, blocked_range2d.make, blocked_range.size]
  obtain ⟨tiles, ht⟩ := simple_partition_terminates _ _ hgp (le_refl _)
  have hcount : ∀ row col, tiles.countP (fun t => t.contains row col) =
      if row < H ∧ col < W then 1 else 0 := by
    intro row col
    rw [simple_partition_count _ _ _ ht row col]
    simp [blocked_range2d.contains, blocked_range2d.make]
  refine ⟨tiles, ?_, hcount, ?_, ?_⟩
  · intro fuel hf
    obtain ⟨tiles2, ht2⟩ := simple_partition_terminates fuel _ hgp (by omega)
    rw [ht2, simple_partition_fuel _ _ _ _ _ ht2 ht]
  · intro t ht row col hc
    by_contra hn
    have h0 := hcount row col
    rw [if_neg hn, List.countP_eq_zero] at h0
    exact h0 t ht hc
  · rw [simple_partition_area _ _ _ ht, Nat.mul_comm]
    simp [blocked_range2d.area, blocked_range2d.make, blocked_range.size]

/-- C1 at a raster of 5 columns and 3 rows with grain size 2. -/
theorem tiles_partition_raster_witness :
    ∃ tiles : List blocked_range2d,
      (∀ fuel, 3 + 5 + 1 ≤ fuel →
        simple_partition fuel (blocked_range2d.make 0 3 2 0 5 2) = some tiles) ∧
      (∀ row col, tiles.countP (fun t => t.contains row col) =
        if row < 3 ∧ col < 5 then 1 else 0) ∧
      (∀ t ∈ tiles, ∀ row col, t.contains row col = true → row < 3 ∧ col < 5) ∧
      (tiles.map blocked_range2d.area).sum = 5 * 3 :=
  tiles_partition_raster 5 3 2 (by decide) (by decide)

/-! ## The tiles are the cross product of the halving chunks -/

theorem tile_grid_append_left (a b cols : List blocked_range) :
    tile_grid (a ++ b) cols = tile_grid a cols ++ tile_grid b cols := by
  induction a with
  | nil => rfl
  | cons x xs ih => simp [tile_grid, ih]

theorem tile_grid_append_right (rows a b : List blocked_range) :
    (tile_grid rows (a ++ b)).Perm (tile_grid rows a ++ tile_grid rows b) := by
  induction rows with
  | nil => simp [tile_grid]
  | cons x xs ih =>
    simp only [tile_grid, List.map_append, List.append_assoc]
    refine List.Perm.append_left _ ?_
    refine (List.Perm.append_left _ ih).trans ?_
    rw [← List.append_assoc, ← List.append_assoc]
    exact List.Perm.append_right _ List.perm_append_comm

theorem tile_grid_length (rows cols : List blocked_range) :
    (tile_grid rows cols).length = rows.length * cols.length := by
  induction rows with
  | nil => simp [tile_grid]
  | cons x xs ih => simp [tile_grid, ih, Nat.succ_mul, Nat.add_comm]

theorem mem_tile_grid (rows cols : List blocked_range) (t : blocked_range2d) :
    t ∈ tile_grid rows cols ↔ t.my_rows ∈ rows ∧ t.my_cols ∈ cols := by
  induction rows with
  | nil => simp [tile_grid]
  | cons x xs ih =>
    simp only [tile_grid, List.mem_append, List.mem_map, ih, List.mem_cons]
    constructor
    · rintro (⟨b, hb, rfl⟩ | ⟨h1, h2⟩)
      · exact ⟨Or.inl rfl, hb⟩
      · exact ⟨Or.inr h1, h2⟩
    · rintro ⟨h1 | h1, h2⟩
      · left
        refine ⟨t.my_cols, h2, ?_⟩
        cases t
        simp_all
      · exact Or.inr ⟨h1, h2⟩

theorem halving_chunks_split (r : blocked_range) (hd : r.is_divisible = true)
    (hg : 1 ≤ r.my_grainsize) :
    halving_chunks r = halving_chunks r.do_split.1 ++ halving_chunks r.do_split.2 := by
  rw [halving_chunks]
  simp [hd, hg]

theorem halving_chunks_leaf (r : blocked_range) (hd : r.is_divisible = false) :
    halving_chunks r = [r] := by
  rw [halving_chunks]
  simp [hd]

/-- The tiles of a range are, up to their order, the cross product of the
halving chunks of its rows and of its columns. -/
theorem simple_partition_grid (fuel : Nat) :
    ∀ (r : blocked_range2d) (tiles : List blocked_range2d),
      r.grains_pos → simple_partition fuel r = some tiles →
      tiles.Perm (tile_grid (halving_chunks r.my_rows) (halving_chunks r.my_cols)) := by
  induction fuel with
  | zero => intro r tiles _ h; simp [simple_partition] at h
  | succ n ih =>
    intro r tiles hg h
    unfold simple_partition at h
    by_cases hd : r.is_divisible = true
    · simp only [hd, if_true] at h
      obtain ⟨g1, g2, _, _⟩ := split_decreases r hg hd
      cases ha : simple_partition n r.do_split.1 with
      | none => simp [ha] at h
      | some a =>
        cases hb : simple_partition n r.do_split.2 with
        | none => simp [ha, hb] at h
        | some b =>
          simp only [ha, hb, Option.some.injEq] at h
          have p1 := ih _ _ g1 ha
          have p2 := ih _ _ g2 hb
          rw [← h]
          refine (List.Perm.append p1 p2).trans ?_
          rcases split_cases r hg hd with ⟨he, hdiv⟩ | ⟨he, hdiv⟩
          · rw [he, halving_chunks_split r.my_cols hdiv hg.2]
            exact (tile_grid_append_right _ _ _).symm
          · rw [he, halving_chunks_split r.my_rows hdiv hg.1, tile_grid_append_left]
    · simp only [hd, Bool.false_eq_true, if_false, Option.some.injEq] at h
      simp only [blocked_range2d.is_divisible, Bool.or_eq_true, not_or, Bool.not_eq_true] at hd
      rw [← h, halving_chunks_leaf _ hd.1, halving_chunks_leaf _ hd.2]
      simp [tile_grid]

/-! ## The halving chunks of one dimension -/

theorem consecutive_append (l m : List blocked_range) :
    ∀ a b c : Nat, consecutive a l b → consecutive b m c → consecutive a (l ++ m) c := by
  induction l with
  | nil => intro a b c h1 h2; simp only [consecutive] at h1; simpa [h1] using h2
  | cons x xs ih =>
    intro a b c h1 h2
    simp only [consecutive, List.cons_append] at h1 ⊢
    exact ⟨h1.1, ih _ _ _ h1.2 h2⟩

theorem ceil_div_add_le (a b g : Nat) (hg : 1 ≤ g) :
    ceil_div (a + b) g ≤ ceil_div a g + ceil_div b g := by
  unfold ceil_div
  have ha := Nat.lt_mul_div_succ (a + g - 1) (show 0 < g by omega)
  have hb := Nat.lt_mul_div_succ (b + g - 1) (show 0 < g by omega)
  rw [Nat.mul_succ] at ha hb
  apply Nat.le_of_lt_succ
  apply Nat.div_lt_of_lt_mul
  rw [Nat.mul_succ, Nat.mul_add]
  omega

theorem ceil_div_le_one (n g : Nat) (hg : 1 ≤ g) (h : n ≤ g) : ceil_div n g ≤ 1 := by
  unfold ceil_div
  apply Nat.le_of_lt_succ
  apply Nat.div_lt_of_lt_mul
  omega

/-- What repeated halving does to one dimension of `n ≥ 1` pixels with a
positive grain size: the chunks follow one another from the beginning to the
end of the range, each has between 1 and `my_grainsize` pixels and the grain
size of the range, and there are at least `ceil(n / my_grainsize)` of them. -/
theorem halving_chunks_spec (n : Nat) :
    ∀ r : blocked_range, r.size = n → 1 ≤ n → 1 ≤ r.my_grainsize →
      consecutive r.my_begin (halving_chunks r) r.my_end ∧
      (∀ c ∈ halving_chunks r, 1 ≤ c.size ∧ c.size ≤ r.my_grainsize ∧
        c.my_grainsize = r.my_grainsize) ∧
      ceil_div n r.my_grainsize ≤ (halving_chunks r).length := by
  induction n using Nat.strong_induction_on with
  | _ n ih =>
    intro r hn h1 hg
    by_cases hd : r.is_divisible = true
    · obtain ⟨s1, s2, g1, g2⟩ := range_split_size r
      have hlt : r.my_grainsize < r.size := by
        simpa [blocked_range.is_divisible] using hd
      obtain ⟨c1, b1, n1⟩ := ih (r.size / 2) (by omega) r.do_split.1 s1 (by omega) (by omega)
      obtain ⟨c2, b2, n2⟩ := ih (r.size - r.size / 2) (by omega) r.do_split.2 s2 (by omega)
        (by omega)
      rw [halving_chunks_split r hd hg]
      refine ⟨consecutive_append _ _ _ _ _ c1 c2, ?_, ?_⟩
      · intro c hc
        rw [List.mem_append] at hc
        rcases hc with hc | hc
        · have := b1 c hc
          rw [g1] at this
          exact this
        · have := b2 c hc
          rw [g2] at this
          exact this
      · rw [List.length_append]
        rw [g1] at n1
        rw [g2] at n2
        have hsum : n = r.size / 2 + (r.size - r.size / 2) := by omega
        have := ceil_div_add_le (r.size / 2) (r.size - r.size / 2) r.my_grainsize hg
        rw [← hsum] at this
        omega
    · have hd2 : r.is_divisible = false := by simpa using hd
      have hle : r.size ≤ r.my_grainsize := by
        simpa [blocked_range.is_divisible] using hd2
      rw [halving_chunks_leaf r hd2]
      refine ⟨by simp [consecutive], ?_, ?_⟩
      · intro c hc
        rw [List.mem_singleton] at hc
        rw [hc]
        omega
      · have := ceil_div_le_one n r.my_grainsize hg (by omega)
        simpa using this

/-! ## Effect of the tile bodies on `task_count` -/

theorem run_tiles_task_count {R C : Type} (A : Arith R C) (cfg : Config C)
    (tiles : List blocked_range2d) :
    ∀ st : RenderState, (run_tiles A cfg tiles st).task_count = st.task_count + tiles.length := by
  induction tiles with
  | nil => intro st; simp [run_tiles]
  | cons t ts ih =>
    intro st
    have h := ih (tile_body A cfg t st)
    simp only [run_tiles, List.foldl_cons, List.length_cons] at h ⊢
    rw [h]
    simp only [tile_body]
    push_cast
    omega

theorem halving_chunks_length_ge (r : blocked_range) (hg : 1 ≤ r.my_grainsize) :
    ceil_div r.size r.my_grainsize ≤ (halving_chunks r).length := by
  by_cases h0 : 1 ≤ r.size
  · exact (halving_chunks_spec r.size r rfl h0 hg).2.2
  · have hz : r.size = 0 := by omega
    have hc : ceil_div 0 r.my_grainsize = 0 := by
      unfold ceil_div
      exact Nat.div_eq_of_lt (by omega)
    rw [hz, hc]
    exact Nat.zero_le _

/-- The tiles of the range of `main`, for an `int` grain size `g ≥ 1`: splitting
terminates for any fuel from `H + W + 1` on, and the tiles are a permutation of
the cross product of the halving chunks of `[0,H)` and of `[0,W)`. -/
theorem main_range_tiles (W H : Nat) (g : Int) (hg1 : 1 ≤ g) (hg2 : g ≤ 2147483647) :
    ∃ tiles : List blocked_range2d,
      (∀ fuel, H + W + 1 ≤ fuel →
        simple_partition fuel (blocked_range2d.make 0 H g 0 W g) = some tiles) ∧
      tiles.Perm (tile_grid (halving_chunks ⟨H, 0, g.toNat⟩) (halving_chunks ⟨W, 0, g.toNat⟩)) := by
  obtain ⟨hs, hpos⟩ := toSizeT_of_int hg1 hg2
  have hgp : (blocked_range2d.make 0 H g 0 W g).grains_pos := ⟨hpos, hpos⟩
  have hfuel : enough_fuel (blocked_range2d.make 0 H g 0 W g) = H + W + 1 := by
    simp [enough_fuel, blocked_range2d.make, blocked_range.size]
  obtain ⟨tiles, ht⟩ := simple_partition_terminates _ _ hgp (le_refl _)
  refine ⟨tiles, ?_, ?_⟩
  · intro fuel hf
    obtain ⟨tiles2, ht2⟩ := simple_partition_terminates fuel _ hgp (by omega)
    rw [ht2, simple_partition_fuel _ _ _ _ _ ht2 ht]
  · have := simple_partition_grid _ _ _ hgp ht
    simpa [blocked_range2d.make, hs] using this

/-! ## C2: the task count -/

/-- C2, as the code has it. For every raster, every `int` grain size `g ≥ 1` and
enough fuel, one `parallel_for` started with `task_count = 0` ends with
`task_count` equal to the number of halving chunks of `[0,H)` times the number
of halving chunks of `[0,W)`.  This is at least `ceil(W/g) * ceil(H/g)`; for
`W = H = 800` and `g = 256` both are `4 * 4`. -/
theorem task_count_is_product_of_chunk_counts {R C : Type} (A : Arith R C) (cfg : Config C)
    (g : Int) (hg1 : 1 ≤ g) (hg2 : g ≤ 2147483647) (img : Image) (fuel : Nat)
    (hf : cfg.display_height + cfg.display_width + 1 ≤ fuel) :
    (∃ st, parallel_for A cfg fuel (main_range cfg g) ⟨img, 0⟩ = some st ∧
      st.task_count = (((halving_chunks ⟨cfg.display_height, 0, g.toNat⟩).length *
        (halving_chunks ⟨cfg.display_width, 0, g.toNat⟩).length : Nat) : Int) ∧
      ((ceil_div cfg.display_width g.toNat * ceil_div cfg.display_height g.toNat : Nat) : Int)
        ≤ st.task_count) ∧
    (halving_chunks ⟨800, 0, 256⟩).length = 4 ∧ ceil_div 800 256 = 4 := by
  refine ⟨?_, ?_, by decide⟩
  · obtain ⟨tiles, hsome, hperm⟩ :=
      main_range_tiles cfg.display_width cfg.display_height g hg1 hg2
    have hlen : tiles.length = (halving_chunks ⟨cfg.display_height, 0, g.toNat⟩).length *
        (halving_chunks ⟨cfg.display_width, 0, g.toNat⟩).length := by
      rw [hperm.length_eq, tile_grid_length]
    have hs : simple_partition fuel (main_range cfg g) = some tiles := hsome fuel hf
    refine ⟨run_tiles A cfg tiles ⟨img, 0⟩, ?_, ?_, ?_⟩
    · simp [parallel_for, hs]
    · rw [run_tiles_task_count, hlen]
      simp
    · rw [run_tiles_task_count, hlen]
      have hgn : 1 ≤ g.toNat := by omega
      have h1 := halving_chunks_length_ge ⟨cfg.display_height, 0, g.toNat⟩ hgn
      have h2 := halving_chunks_length_ge ⟨cfg.display_width, 0, g.toNat⟩ hgn
      simp only [blocked_range.size, Nat.sub_zero] at h1 h2
      have := Nat.mul_le_mul h2 h1
      rw [Nat.mul_comm (halving_chunks _).length] at this
      simp only [zero_add]
      exact_mod_cast this
  · simp [halving_chunks, blocked_range.is_divisible, blocked_range.size, blocked_range.do_split]

/-- C2 at the raster and first grain size of `main`, from a fresh image. -/
theorem task_count_is_product_of_chunk_counts_witness :
    (∃ st, parallel_for exactArith (main_config exactArith) 1601
        (main_range (main_config exactArith) 8) ⟨Image.create 800 800, 0⟩ = some st ∧
      st.task_count = (((halving_chunks ⟨(main_config exactArith).display_height, 0,
          (8 : Int).toNat⟩).length *
        (halving_chunks ⟨(main_config exactArith).display_width, 0, (8 : Int).toNat⟩).length
          : Nat) : Int) ∧
      ((ceil_div (main_config exactArith).display_width (8 : Int).toNat *
          ceil_div (main_config exactArith).display_height (8 : Int).toNat : Nat) : Int)
        ≤ st.task_count) ∧
    (halving_chunks ⟨800, 0, 256⟩).length = 4 ∧ ceil_div 800 256 = 4 :=
  task_count_is_product_of_chunk_counts exactArith (main_config exactArith) 8 (by decide)
    (by decide) (Image.create 800 800) 1601 (by decide)

/-- C2 as stated fails in the configured sweep: for `W = H = 800` and `g = 128`
the render runs 64 tiles, while `ceil(800/128) * ceil(800/128) = 49`. -/
theorem task_count_not_ceil_product :
    (parallel_for exactArith (main_config exactArith) 1601
        (main_range (main_config exactArith) 128) ⟨Image.create 800 800, 0⟩).map
      RenderState.task_count = some 64 ∧
    ceil_div 800 128 * ceil_div 800 128 = 49 := by
  refine ⟨?_, by decide⟩
  have hlen : (simple_partition 1601 (main_range (main_config exactArith) 128)).map List.length
      = some 64 := by decide
  cases hs : simple_partition 1601 (main_range (main_config exactArith) 128) with
  | none => simp [hs] at hlen
  | some tiles =>
    simp only [hs, Option.map_some', Option.some.injEq] at hlen
    simp only [parallel_for, hs, Option.map_some', Option.some.injEq]
    rw [run_tiles_task_count, hlen]
    rfl

/-! ## C3: the shape of the tiles -/

/-- C3, as the code has it. For every raster `W × H` with `W, H ≥ 1` and every `int`
grain size `g ≥ 1`, the tiles are (up to their order) the cross product of the
halving chunks of `[0,H)` and of `[0,W)`; in each dimension the chunks follow
one another from `0` to the end and each has between 1 and `g` pixels.  For
`W = H = 800` and `g = 256` the chunks of a dimension are `[0,200)`,
`[200,400)`, `[400,600)`, `[600,800)`. -/
theorem tiles_are_grid_of_halving_chunks (W H : Nat) (g : Int) (hW : 1 ≤ W) (hH : 1 ≤ H)
    (hg1 : 1 ≤ g) (hg2 : g ≤ 2147483647) :
    (∃ tiles : List blocked_range2d,
      (∀ fuel, H + W + 1 ≤ fuel →
        simple_partition fuel (blocked_range2d.make 0 H g 0 W g) = some tiles) ∧
      tiles.Perm (tile_grid (halving_chunks ⟨H, 0, g.toNat⟩) (halving_chunks ⟨W, 0, g.toNat⟩))) ∧
    consecutive 0 (halving_chunks ⟨H, 0, g.toNat⟩) H ∧
    consecutive 0 (halving_chunks ⟨W, 0, g.toNat⟩) W ∧
    (∀ c ∈ halving_chunks ⟨H, 0, g.toNat⟩, 1 ≤ c.size ∧ (c.size : Int) ≤ g) ∧
    (∀ c ∈ halving_chunks ⟨W, 0, g.toNat⟩, 1 ≤ c.size ∧ (c.size : Int) ≤ g) ∧
    halving_chunks ⟨800, 0, 256⟩ =
      [⟨200, 0, 256⟩, ⟨400, 200, 256⟩, ⟨600, 400, 256⟩, ⟨800, 600, 256⟩] := by
  have hgn : 1 ≤ g.toNat := by omega
  obtain ⟨cH, bH, _⟩ := halving_chunks_spec H ⟨H, 0, g.toNat⟩ rfl hH hgn
  obtain ⟨cW, bW, _⟩ := halving_chunks_spec W ⟨W, 0, g.toNat⟩ rfl hW hgn
  refine ⟨main_range_tiles W H g hg1 hg2, cH, cW, ?_, ?_, ?_⟩
  · intro c hc
    have := bH c hc
    simp only at this
    omega
  · intro c hc
    have := bW c hc
    simp only at this
    omega
  · simp [halving_chunks, blocked_range.is_divisible, blocked_range.size, blocked_range.do_split]

/-- C3 at a raster of 5 columns and 3 rows with grain size 2. -/
theorem tiles_are_grid_of_halving_chunks_witness :
    (∃ tiles : List blocked_range2d,
      (∀ fuel, 3 + 5 + 1 ≤ fuel →
        simple_partition fuel (blocked_range2d.make 0 3 2 0 5 2) = some tiles) ∧
      tiles.Perm (tile_grid (halving_chunks ⟨3, 0, (2 : Int).toNat⟩)
        (halving_chunks ⟨5, 0, (2 : Int).toNat⟩))) ∧
    consecutive 0 (halving_chunks ⟨3, 0, (2 : Int).toNat⟩) 3 ∧
    consecutive 0 (halving_chunks ⟨5, 0, (2 : Int).toNat⟩) 5 ∧
    (∀ c ∈ halving_chunks ⟨3, 0, (2 : Int).toNat⟩, 1 ≤ c.size ∧ (c.size : Int) ≤ 2) ∧
    (∀ c ∈ halving_chunks ⟨5, 0, (2 : Int).toNat⟩, 1 ≤ c.size ∧ (c.size : Int) ≤ 2) ∧
    halving_chunks ⟨800, 0, 256⟩ =
      [⟨200, 0, 256⟩, ⟨400, 200, 256⟩, ⟨600, 400, 256⟩, ⟨800, 600, 256⟩] :=
  tiles_are_grid_of_halving_chunks 5 3 2 (by decide) (by decide) (by decide) (by decide)

/-- C3 as stated fails at its own example: for `W = H = 800` and `g = 256` the
decomposition has 16 tiles, each of 200 rows and 200 columns; no tile spans 256
or 32 pixels in either dimension. -/
theorem tiles_800_256_all_span_200 :
    ∃ tiles : List blocked_range2d,
      simple_partition 1601 (blocked_range2d.make 0 800 256 0 800 256) = some tiles ∧
      tiles.length = 16 ∧
      (∀ t ∈ tiles, t.my_rows.size = 200 ∧ t.my_cols.size = 200) ∧
      ¬ (∃ t ∈ tiles, t.my_rows.size = 256 ∨ t.my_rows.size = 32 ∨
          t.my_cols.size = 256 ∨ t.my_cols.size = 32) := by
  have h : ∀ o : Option (List blocked_range2d),
      (o.map (fun l => l.map (fun t => (t.my_rows.size, t.my_cols.size)))) =
        some (List.replicate 16 (200, 200)) →
      ∃ tiles, o = some tiles ∧ tiles.length = 16 ∧
        (∀ t ∈ tiles, t.my_rows.size = 200 ∧ t.my_cols.size = 200) ∧
        ¬ (∃ t ∈ tiles, t.my_rows.size = 256 ∨ t.my_rows.size = 32 ∨
            t.my_cols.size = 256 ∨ t.my_cols.size = 32) := by
    intro o ho
    cases o with
    | none => simp at ho
    | some tiles =>
      simp only [Option.map_some', Option.some.injEq] at ho
      have hall : ∀ t ∈ tiles, t.my_rows.size = 200 ∧ t.my_cols.size = 200 := by
        intro t ht
        have hm : (t.my_rows.size, t.my_cols.size) ∈
            tiles.map (fun t => (t.my_rows.size, t.my_cols.size)) :=
          List.mem_map_of_mem _ ht
        rw [ho] at hm
        have := List.eq_of_mem_replicate hm
        simpa using this
      refine ⟨tiles, rfl, ?_, hall, ?_⟩
      · have := congrArg List.length ho
        simpa using this
      · rintro ⟨t, ht, hsz⟩
        have := hall t ht
        omega
  exact h _ (by decide)

/-! ## C4, C5: `mandelbrot` at escaped points and at a fixed point -/

/-- In exact arithmetic the test `norm(z) < 4.` fails exactly when the squared
magnitude is at least 4. -/
theorem exact_test_fails_iff (z : ℚ × ℚ) :
    exactArith.lt (exactArith.norm z) (exactArith.lit 4) = false ↔ 4 ≤ z.1 * z.1 + z.2 * z.2 := by
  simp [exactArith]

/-- While `z` is a fixed point of `z ↦ z * z + c` that passes the test
`norm(z) < 4.`, the loop runs up to the bound 256. -/
theorem mandelbrot_loop_fixed {R C : Type} (A : Arith R C) (c z : C)
    (hfix : A.cadd (A.cmul z z) c = z) (hlt : A.lt (A.norm z) (A.lit 4) = true) (n : Nat) :
    ∀ (i : Nat) (hi : i ≤ 256), 256 - i = n → mandelbrot_loop A c i hi z = 256 := by
  induction n with
  | zero =>
    intro i hi hn
    have : i = 256 := by omega
    subst this
    rw [mandelbrot_loop]
    simp
  | succ k ih =>
    intro i hi hn
    rw [mandelbrot_loop]
    have hne : i ≠ 256 := by omega
    simp only [hne, ne_eq, not_false_eq_true, hlt, and_self, dite_true, hfix]
    exact ih (i + 1) (by omega) (by omega)

/-- C4. If the test `norm(z) < 4.` fails for `z = c` (which is what squared
magnitude `≥ 4` means for the comparison the code makes), `mandelbrot(c)`
returns 0: the update is never applied. -/
theorem mandelbrot_escaped_is_zero {R C : Type} (A : Arith R C) (c : C)
    (h : A.lt (A.norm c) (A.lit 4) = false) : mandelbrot A c = 0 := by
  unfold mandelbrot
  rw [mandelbrot_loop]
  simp [h]

/-- C4 in exact arithmetic at `c = 2`, whose squared magnitude is 4. -/
theorem mandelbrot_escaped_is_zero_witness :
    4 ≤ (2 : ℚ) * 2 + 0 * 0 ∧ mandelbrot exactArith ((2 : ℚ), (0 : ℚ)) = 0 :=
  ⟨by norm_num,
   mandelbrot_escaped_is_zero exactArith ((2 : ℚ), (0 : ℚ))
     ((exact_test_fails_iff ((2 : ℚ), (0 : ℚ))).2 (by norm_num))⟩

/-- C5. `mandelbrot(0)` returns 256, in every arithmetic where `0 * 0 + 0` is `0`
and `norm(0) < 4.` holds: `z` stays `0` at each of the 256 iterations. -/
theorem mandelbrot_zero_is_256 {R C : Type} (A : Arith R C)
    (hfix : A.cadd (A.cmul (A.cplx (A.lit 0) (A.lit 0)) (A.cplx (A.lit 0) (A.lit 0)))
      (A.cplx (A.lit 0) (A.lit 0)) = A.cplx (A.lit 0) (A.lit 0))
    (hlt : A.lt (A.norm (A.cplx (A.lit 0) (A.lit 0))) (A.lit 4) = true) :
    mandelbrot A (A.cplx (A.lit 0) (A.lit 0)) = 256 := by
  unfold mandelbrot
  rw [mandelbrot_loop_fixed A _ _ hfix hlt 256 0 (by decide) rfl]
  rfl

/-- C5 in exact arithmetic: `mandelbrot(0) = 256`. -/
theorem mandelbrot_zero_is_256_witness :
    mandelbrot exactArith ((0 : ℚ), (0 : ℚ)) = 256 :=
  mandelbrot_zero_is_256 exactArith (by simp [exactArith]) (by simp [exactArith])

/-! ## C6: `to_color` -/

/-- C6. `to_color(256)` is pure black, and for `0 ≤ k < 256` the colour has red
channel `(10 * k) mod 256` and green and blue channels 0; the red channel is
`10 * k` itself exactly for `k ≤ 25`, and for `k ≥ 26` it is smaller than
`10 * k` and is not the saturated value 255. -/
theorem to_color_wraps (k : Int) (h0 : 0 ≤ k) (h1 : k < 256) :
    to_color 256 = Color.Black ∧
    (Color.Black.r = 0 ∧ Color.Black.g = 0 ∧ Color.Black.b = 0) ∧
    to_color k = ⟨((10 * k) % 256).toNat, 0, 0, 255⟩ ∧
    (((to_color k).r : Int) = 10 * k ↔ k ≤ 25) ∧
    (26 ≤ k → ((to_color k).r : Int) < 10 * k ∧ (to_color k).r ≠ 255) := by
  refine ⟨by decide, by decide, ?_, ?_, ?_⟩
  · simp [to_color, toUint8, h1]
  · simp only [to_color, toUint8, h1, if_true]
    omega
  · simp only [to_color, toUint8, h1, if_true]
    omega

/-- C6 at `k = 26`, the first count whose red channel wraps: `260 mod 256 = 4`. -/
theorem to_color_wraps_witness :
    to_color 256 = Color.Black ∧
    (Color.Black.r = 0 ∧ Color.Black.g = 0 ∧ Color.Black.b = 0) ∧
    to_color 26 = ⟨((10 * 26 : Int) % 256).toNat, 0, 0, 255⟩ ∧
    (((to_color 26).r : Int) = 10 * 26 ↔ (26 : Int) ≤ 25) ∧
    ((26 : Int) ≤ 26 → ((to_color 26).r : Int) < 10 * 26 ∧ (to_color 26).r ≠ 255) :=
  to_color_wraps 26 (by decide) (by decide)

/-! ## Writing pixels -/

theorem index_div_mod (W x y : Nat) (hx : x < W) :
    (x + y * W) / W = y ∧ (x + y * W) % W = x := by
  constructor
  · rw [Nat.add_mul_div_right _ _ (by omega), Nat.div_eq_of_lt hx, Nat.zero_add]
  · rw [Nat.add_mul_mod_self_right, Nat.mod_eq_of_lt hx]

theorem paints_setPixel (W x y : Nat) (c : Color) :
    Paints W (fun img => img.setPixel x y c) (fun j => j = x + y * W) (fun _ => c) := by
  intro img hW
  refine ⟨hW, rfl, by simp [Image.setPixel], ?_⟩
  intro j
  constructor
  · intro hj hlt
    subst hj
    simp only [Image.setPixel, hW]
    exact List.getElem?_set_self hlt
  · intro hj
    simp only [Image.setPixel, hW]
    exact List.getElem?_set_ne (fun h => hj h.symm)

theorem paints_congr {W : Nat} {T : Image → Image} {P Q : Nat → Prop} {col col2 : Nat → Color}
    (h : Paints W T P col) (hP : ∀ j, Q j ↔ P j) (hc : ∀ j, P j → col2 j = col j) :
    Paints W T Q col2 := by
  intro img hW
  obtain ⟨h1, h2, h3, h4⟩ := h img hW
  refine ⟨h1, h2, h3, ?_⟩
  intro j
  constructor
  · intro hq hlt
    rw [(h4 j).1 ((hP j).1 hq) hlt, hc j ((hP j).1 hq)]
  · intro hq
    exact (h4 j).2 (fun hp => hq ((hP j).2 hp))

theorem paints_seq {W : Nat} {T1 T2 : Image → Image} {P1 P2 : Nat → Prop}
    {c1 c2 : Nat → Color} (col : Nat → Color) (h1 : Paints W T1 P1 c1) (h2 : Paints W T2 P2 c2)
    (hc2 : ∀ j, P2 j → col j = c2 j) (hc1 : ∀ j, P1 j → ¬ P2 j → col j = c1 j) :
    Paints W (fun img => T2 (T1 img)) (fun j => P1 j ∨ P2 j) col := by
  intro img hW
  obtain ⟨a1, a2, a3, a4⟩ := h1 img hW
  obtain ⟨b1, b2, b3, b4⟩ := h2 (T1 img) a1
  refine ⟨b1, b2.trans a2, b3.trans a3, ?_⟩
  intro j
  constructor
  · intro hp hlt
    by_cases hp2 : P2 j
    · rw [(b4 j).1 hp2 (by omega), hc2 j hp2]
    · have hp1 : P1 j := hp.resolve_right hp2
      rw [(b4 j).2 hp2, (a4 j).1 hp1 hlt, hc1 j hp1 hp2]
  · intro hp
    rw [(b4 j).2 (fun h => hp (Or.inr h)), (a4 j).2 (fun h => hp (Or.inl h))]

theorem paints_range_foldl (W b : Nat) (step : Nat → Image → Image) (P : Nat → Nat → Prop)
    (col : Nat → Color) (n : Nat) :
    (∀ k, k < n → Paints W (step (b + k)) (P (b + k)) col) →
    Paints W (fun img => (List.range n).foldl (fun acc k => step (b + k) acc) img)
      (fun j => ∃ k, k < n ∧ P (b + k) j) col := by
  induction n with
  | zero =>
    intro _ img hW
    refine ⟨hW, rfl, rfl, ?_⟩
    intro j
    constructor
    · rintro ⟨k, hk, _⟩
      omega
    · intro _
      rfl
  | succ n ih =>
    intro h
    have hprev := ih (fun k hk => h k (by omega))
    have hlast := h n (by omega)
    have hseq := paints_seq col hprev hlast (fun _ _ => rfl) (fun _ _ _ => rfl)
    have hfun : (fun img => (List.range (n + 1)).foldl (fun acc k => step (b + k) acc) img) =
        (fun img => step (b + n) ((List.range n).foldl (fun acc k => step (b + k) acc) img)) := by
      funext img
      rw [List.range_succ, List.foldl_append]
      rfl
    rw [hfun]
    refine paints_congr hseq ?_ (fun _ _ => rfl)
    intro j
    constructor
    · rintro ⟨k, hk, hp⟩
      by_cases hkn : k = n
      · subst hkn
        exact Or.inr hp
      · exact Or.inl ⟨k, by omega, hp⟩
    · rintro (⟨k, hk, hp⟩ | hp)
      · exact ⟨k, by omega, hp⟩
      · exact ⟨n, by omega, hp⟩

theorem paints_for_loop (W b e : Nat) (step : Nat → Image → Image) (P : Nat → Nat → Prop)
    (col : Nat → Color) (h : ∀ v, b ≤ v → v < e → Paints W (step v) (P v) col) :
    Paints W (for_loop b e step) (fun j => ∃ v, b ≤ v ∧ v < e ∧ P v j) col := by
  have h1 := paints_range_foldl W b step P col (e - b) (fun k hk => h (b + k) (by omega) (by omega))
  have hfun : for_loop b e step =
      (fun img => (List.range (e - b)).foldl (fun acc k => step (b + k) acc) img) := by
    funext img
    rfl
  rw [hfun]
  refine paints_congr h1 ?_ (fun _ _ => rfl)
  intro j
  constructor
  · rintro ⟨v, hb, he, hp⟩
    refine ⟨v - b, by omega, ?_⟩
    have : b + (v - b) = v := by omega
    rw [this]
    exact hp
  · rintro ⟨k, hk, hp⟩
    exact ⟨b + k, by omega, by omega, hp⟩

/-- The body of a tile inside the raster paints exactly the pixels of the tile,
each with its `tile_color`. -/
theorem paints_tile_body {R C : Type} (A : Arith R C) (cfg : Config C) (t : blocked_range2d)
    (H W : Nat) (hw : t.within H W) (k : Int) :
    Paints W (fun img => (tile_body A cfg t ⟨img, k⟩).image)
      (fun j => t.contains (j / W) (j % W) = true)
      (fun j => tile_color A cfg t (j % W) (j / W)) := by
  obtain ⟨hr, hrH, hc, hcW⟩ := hw
  -- the three loops of the body
  have hfrac : Paints W
      (for_loop t.my_rows.my_begin t.my_rows.my_end (fun row img =>
        for_loop t.my_cols.my_begin t.my_cols.my_end (fun column img =>
          img.setPixel column row (to_color (mandelbrot A (pixel_point A cfg column row)))) img))
      (fun j => ∃ row, t.my_rows.my_begin ≤ row ∧ row < t.my_rows.my_end ∧
        ∃ v, t.my_cols.my_begin ≤ v ∧ v < t.my_cols.my_end ∧ j = v + row * W)
      (fun j => to_color (mandelbrot A (pixel_point A cfg (j % W) (j / W)))) := by
    apply paints_for_loop W _ _ _
      (fun row j => ∃ v, t.my_cols.my_begin ≤ v ∧ v < t.my_cols.my_end ∧ j = v + row * W)
    intro row _ _
    apply paints_for_loop W _ _ _ (fun v j => j = v + row * W)
    intro v _ hv
    refine paints_congr (paints_setPixel W v row _) (fun _ => Iff.rfl) ?_
    intro j hj
    obtain ⟨e1, e2⟩ := index_div_mod W v row (by omega)
    simp only [hj, e1, e2]
  have hhor : Paints W
      (for_loop t.my_cols.my_begin t.my_cols.my_end (fun column img =>
        img.setPixel column t.my_rows.my_begin gridColor))
      (fun j => ∃ v, t.my_cols.my_begin ≤ v ∧ v < t.my_cols.my_end ∧
        j = v + t.my_rows.my_begin * W)
      (fun _ => gridColor) := by
    apply paints_for_loop W _ _ _ (fun v j => j = v + t.my_rows.my_begin * W)
    intro v _ _
    exact paints_setPixel W v _ _
  have hver : Paints W
      (for_loop t.my_rows.my_begin t.my_rows.my_end (fun row img =>
        img.setPixel t.my_cols.my_begin row gridColor))
      (fun j => ∃ row, t.my_rows.my_begin ≤ row ∧ row < t.my_rows.my_end ∧
        j = t.my_cols.my_begin + row * W)
      (fun _ => gridColor) := by
    apply paints_for_loop W _ _ _ (fun row j => j = t.my_cols.my_begin + row * W)
    intro row _ _
    exact paints_setPixel W _ row _
  -- fractal pixels first, then the horizontal line
  have h12 := paints_seq
    (fun j => if j / W = t.my_rows.my_begin then gridColor
      else to_color (mandelbrot A (pixel_point A cfg (j % W) (j / W))))
    hfrac hhor
    (by
      rintro j ⟨v, _, hv, hj⟩
      obtain ⟨e1, _⟩ := index_div_mod W v t.my_rows.my_begin (by omega)
      simp only [hj, e1, if_true])
    (by
      rintro j ⟨row, _, _, v, hv1, hv2, hj⟩ hn
      obtain ⟨e1, _⟩ := index_div_mod W v row (by omega)
      have hne : row ≠ t.my_rows.my_begin := by
        intro he
        exact hn ⟨v, hv1, hv2, by rw [hj, he]⟩
      simp only [hj, e1, hne, if_false])
  -- then the vertical line
  have h123 := paints_seq
    (fun j => tile_color A cfg t (j % W) (j / W))
    h12 hver
    (by
      rintro j ⟨row, _, _, hj⟩
      obtain ⟨_, e2⟩ := index_div_mod W t.my_cols.my_begin row (by omega)
      simp only [tile_color, hj, e2, or_true, if_true])
    (by
      intro j hp hn
      have hne : j % W ≠ t.my_cols.my_begin := by
        intro he
        apply hn
        rcases hp with ⟨row, h1, h2, v, hv1, hv2, hj⟩ | ⟨v, hv1, hv2, hj⟩
        · obtain ⟨_, e2⟩ := index_div_mod W v row (by omega)
          refine ⟨row, h1, h2, ?_⟩
          rw [hj, e2] at he
          rw [hj, he]
        · obtain ⟨_, e2⟩ := index_div_mod W v t.my_rows.my_begin (by omega)
          refine ⟨t.my_rows.my_begin, le_refl _, hr, ?_⟩
          rw [hj, e2] at he
          rw [hj, he]
      simp only [tile_color, hne, or_false])
  refine paints_congr h123 ?_ (fun _ _ => rfl)
  intro j
  simp only [blocked_range2d.contains, decide_eq_true_eq]
  constructor
  · rintro ⟨h1, h2, h3, h4⟩
    left
    left
    refine ⟨j / W, h1, h2, j % W, h3, h4, ?_⟩
    have := Nat.mod_add_div j W
    rw [Nat.mul_comm] at this
    exact this.symm
  · rintro ((⟨row, h1, h2, v, hv1, hv2, hj⟩ | ⟨v, hv1, hv2, hj⟩) | ⟨row, h1, h2, hj⟩)
    · obtain ⟨e1, e2⟩ := index_div_mod W v row (by omega)
      rw [hj, e1, e2]
      exact ⟨h1, h2, hv1, hv2⟩
    · obtain ⟨e1, e2⟩ := index_div_mod W v t.my_rows.my_begin (by omega)
      rw [hj, e1, e2]
      exact ⟨le_refl _, hr, hv1, hv2⟩
    · obtain ⟨e1, e2⟩ := index_div_mod W t.my_cols.my_begin row (by omega)
      rw [hj, e1, e2]
      exact ⟨h1, h2, le_refl _, hc⟩

/-! ## Running the bodies of a list of tiles -/

/-- After the bodies of a list of tiles inside the raster: a pixel in no tile
is as before, a pixel in exactly one tile has the `tile_color` of that tile. -/
theorem run_tiles_pixels {R C : Type} (A : Arith R C) (cfg : Config C) (H W : Nat)
    (tiles : List blocked_range2d) :
    (∀ t ∈ tiles, t.within H W) → ∀ st : RenderState, st.image.m_size_x = W →
      (run_tiles A cfg tiles st).image.m_size_x = W ∧
      (run_tiles A cfg tiles st).image.m_size_y = st.image.m_size_y ∧
      (run_tiles A cfg tiles st).image.m_pixels.length = st.image.m_pixels.length ∧
      ∀ j,
        (tiles.countP (fun t => t.contains (j / W) (j % W)) = 0 →
          (run_tiles A cfg tiles st).image.m_pixels[j]? = st.image.m_pixels[j]?) ∧
        (tiles.countP (fun t => t.contains (j / W) (j % W)) = 1 →
          j < st.image.m_pixels.length →
          ∀ t ∈ tiles, t.contains (j / W) (j % W) = true →
            (run_tiles A cfg tiles st).image.m_pixels[j]? =
              some (tile_color A cfg t (j % W) (j / W))) := by
  induction tiles with
  | nil =>
    intro _ st hW
    refine ⟨hW, rfl, rfl, ?_⟩
    intro j
    exact ⟨fun _ => rfl, fun h => by simp at h⟩
  | cons t0 ts ih =>
    intro hw st hW
    have hp := paints_tile_body A cfg t0 H W (hw t0 (List.mem_cons_self _ _)) st.task_count
      st.image hW
    obtain ⟨p1, p2, p3, p4⟩ := hp
    have p1 : (tile_body A cfg t0 st).image.m_size_x = W := p1
    have p2 : (tile_body A cfg t0 st).image.m_size_y = st.image.m_size_y := p2
    have p3 : (tile_body A cfg t0 st).image.m_pixels.length = st.image.m_pixels.length := p3
    have p4 : ∀ j,
        (t0.contains (j / W) (j % W) = true → j < st.image.m_pixels.length →
          (tile_body A cfg t0 st).image.m_pixels[j]? =
            some (tile_color A cfg t0 (j % W) (j / W))) ∧
        (¬ t0.contains (j / W) (j % W) = true →
          (tile_body A cfg t0 st).image.m_pixels[j]? = st.image.m_pixels[j]?) := p4
    have hrun : run_tiles A cfg (t0 :: ts) st = run_tiles A cfg ts (tile_body A cfg t0 st) := rfl
    obtain ⟨q1, q2, q3, q4⟩ := ih (fun t ht => hw t (List.mem_cons_of_mem _ ht))
      (tile_body A cfg t0 st) p1
    rw [hrun]
    refine ⟨q1, q2.trans p2, q3.trans p3, ?_⟩
    intro j
    have hcons : (t0 :: ts).countP (fun t => t.contains (j / W) (j % W)) =
        ts.countP (fun t => t.contains (j / W) (j % W)) +
          if t0.contains (j / W) (j % W) = true then 1 else 0 := List.countP_cons _ _ _
    rw [hcons]
    constructor
    · intro h0
      have hc0 : ¬ t0.contains (j / W) (j % W) = true := by
        intro hc
        rw [if_pos hc] at h0
        omega
      have hts : ts.countP (fun t => t.contains (j / W) (j % W)) = 0 := by omega
      rw [(q4 j).1 hts]
      exact (p4 j).2 hc0
    · intro h1 hlt t ht hc
      by_cases hc0 : t0.contains (j / W) (j % W) = true
      · have hts : ts.countP (fun t => t.contains (j / W) (j % W)) = 0 := by
          rw [if_pos hc0] at h1
          omega
        have htt : t = t0 := by
          rcases List.mem_cons.1 ht with h | h
          · exact h
          · exfalso
            rw [List.countP_eq_zero] at hts
            exact hts t h hc
        rw [(q4 j).1 hts, htt]
        exact (p4 j).1 hc0 hlt
      · have hts : ts.countP (fun t => t.contains (j / W) (j % W)) = 1 := by
          rw [if_neg hc0] at h1
          omega
        have hmem : t ∈ ts := by
          rcases List.mem_cons.1 ht with h | h
          · rw [h] at hc
            exact absurd hc hc0
          · exact h
        exact (q4 j).2 hts (by omega) t hmem hc

theorem image_eq_of_fields (a b : Image) (h1 : a.m_size_x = b.m_size_x)
    (h2 : a.m_size_y = b.m_size_y) (h3 : a.m_pixels = b.m_pixels) : a = b := by
  cases a
  cases b
  simp_all

/-- One list of tiles that partitions the raster, run in two orders from two
images of the size of the raster, leaves the same image. -/
theorem run_tiles_image_eq {R C : Type} (A : Arith R C) (cfg : Config C) (H W : Nat)
    (tiles1 tiles2 : List blocked_range2d) (hperm : tiles1.Perm tiles2)
    (hw : ∀ t ∈ tiles1, t.within H W)
    (hcount : ∀ row col, row < H → col < W →
      tiles1.countP (fun t => t.contains row col) = 1)
    (st1 st2 : RenderState) (hv1 : st1.image.valid W H) (hv2 : st2.image.valid W H) :
    (run_tiles A cfg tiles1 st1).image = (run_tiles A cfg tiles2 st2).image ∧
    (run_tiles A cfg tiles1 st1).image.valid W H := by
  obtain ⟨a1, a2, a3⟩ := hv1
  obtain ⟨b1, b2, b3⟩ := hv2
  have hw2 : ∀ t ∈ tiles2, t.within H W := fun t ht => hw t (hperm.mem_iff.2 ht)
  obtain ⟨p1, p2, p3, p4⟩ := run_tiles_pixels A cfg H W tiles1 hw st1 a1
  obtain ⟨q1, q2, q3, q4⟩ := run_tiles_pixels A cfg H W tiles2 hw2 st2 b1
  refine ⟨?_, p1, p2.trans a2, p3.trans a3⟩
  apply image_eq_of_fields
  · rw [p1, q1]
  · rw [p2, q2, a2, b2]
  · apply List.ext_getElem?
    intro j
    by_cases hj : j < W * H
    · have hWpos : 0 < W := by
        rcases Nat.eq_zero_or_pos W with h | h
        · rw [h] at hj
          simp at hj
        · exact h
      have hrow : j / W < H := Nat.div_lt_of_lt_mul hj
      have hcol : j % W < W := Nat.mod_lt _ hWpos
      have hc1 := hcount (j / W) (j % W) hrow hcol
      have hc2 : tiles2.countP (fun t => t.contains (j / W) (j % W)) = 1 := by
        rw [← hperm.countP_eq]
        exact hc1
      have hpos : 0 < tiles1.countP (fun t => t.contains (j / W) (j % W)) := by omega
      obtain ⟨t, ht, hc⟩ := List.countP_pos_iff.1 hpos
      rw [(p4 j).2 hc1 (by omega) t ht hc, (q4 j).2 hc2 (by omega) t (hperm.mem_iff.1 ht) hc]
    · rw [List.getElem?_eq_none (by omega), List.getElem?_eq_none (by omega)]

/-! ## One render of `main` -/

/-- The hypotheses under which `main` renders: a raster with at least one
pixel and an `int` grain size `g ≥ 1`. -/
theorem main_tiles_spec {C : Type} (cfg : Config C) (g : Int)
    (hW : 1 ≤ cfg.display_width) (hH : 1 ≤ cfg.display_height)
    (hg1 : 1 ≤ g) (hg2 : g ≤ 2147483647) :
    (∀ fuel, cfg.display_height + cfg.display_width + 1 ≤ fuel →
      simple_partition fuel (main_range cfg g) = some (tiles_of cfg g)) ∧
    (∀ t ∈ tiles_of cfg g, t.within cfg.display_height cfg.display_width) ∧
    (∀ row col, row < cfg.display_height → col < cfg.display_width →
      (tiles_of cfg g).countP (fun t => t.contains row col) = 1) := by
  obtain ⟨hs, hpos⟩ := toSizeT_of_int hg1 hg2
  have hgp : (main_range cfg g).grains_pos := ⟨hpos, hpos⟩
  have hfuel : enough_fuel (main_range cfg g) = cfg.display_height + cfg.display_width + 1 := by
    simp [enough_fuel, main_range, blocked_range2d.make, blocked_range.size]
  obtain ⟨tiles, ht⟩ := simple_partition_terminates _ _ hgp (le_refl _)
  have htiles : tiles_of cfg g = tiles := by
    simp [tiles_of, ht]
  rw [htiles]
  refine ⟨?_, ?_, ?_⟩
  · intro fuel hf
    obtain ⟨tiles2, ht2⟩ := simple_partition_terminates fuel _ hgp (by omega)
    rw [ht2, simple_partition_fuel _ _ _ _ _ ht2 ht]
  · apply simple_partition_within _ _ _ _ _ hgp _ ht
    simp only [blocked_range2d.within, main_range, blocked_range2d.make]
    omega
  · intro row col hr hc
    rw [simple_partition_count _ _ _ ht row col]
    simp [blocked_range2d.contains, main_range, blocked_range2d.make, hr, hc]

theorem parallel_for_main {R C : Type} (A : Arith R C) (cfg : Config C) (g : Int)
    (hW : 1 ≤ cfg.display_width) (hH : 1 ≤ cfg.display_height)
    (hg1 : 1 ≤ g) (hg2 : g ≤ 2147483647) (fuel : Nat)
    (hf : cfg.display_height + cfg.display_width + 1 ≤ fuel) (st : RenderState) :
    parallel_for A cfg fuel (main_range cfg g) st = some (run_tiles A cfg (tiles_of cfg g) st) := by
  simp [parallel_for, (main_tiles_spec cfg g hW hH hg1 hg2).1 fuel hf]

theorem create_valid (W H : Nat) : (Image.create W H).valid W H := by
  simp [Image.valid, Image.create]

/-- A render with grain size `g` leaves the image of the fresh render, whatever
image of the size of the raster it starts from. -/
theorem render_eq_fresh {R C : Type} (A : Arith R C) (cfg : Config C) (g : Int)
    (hW : 1 ≤ cfg.display_width) (hH : 1 ≤ cfg.display_height)
    (hg1 : 1 ≤ g) (hg2 : g ≤ 2147483647) (st : RenderState)
    (hv : st.image.valid cfg.display_width cfg.display_height) :
    (run_tiles A cfg (tiles_of cfg g) st).image = (fresh_render A cfg g).image ∧
    (fresh_render A cfg g).image.valid cfg.display_width cfg.display_height := by
  obtain ⟨_, hw, hc⟩ := main_tiles_spec cfg g hW hH hg1 hg2
  have h1 := run_tiles_image_eq A cfg _ _ _ _ (List.Perm.refl _) hw hc st
    ⟨Image.create cfg.display_width cfg.display_height, 0⟩ hv (create_valid _ _)
  have h2 := run_tiles_image_eq A cfg _ _ _ _ (List.Perm.refl _) hw hc
    ⟨Image.create cfg.display_width cfg.display_height, 0⟩
    ⟨Image.create cfg.display_width cfg.display_height, 0⟩ (create_valid _ _) (create_valid _ _)
  exact ⟨h1.1, h2.2⟩

/-- The pixel `(x, y)` of the raster after a render: the `tile_color` of the
tile that contains it. -/
theorem render_pixel {R C : Type} (A : Arith R C) (cfg : Config C) (g : Int)
    (hW : 1 ≤ cfg.display_width) (hH : 1 ≤ cfg.display_height)
    (hg1 : 1 ≤ g) (hg2 : g ≤ 2147483647) (st : RenderState)
    (hv : st.image.valid cfg.display_width cfg.display_height)
    (x y : Nat) (hx : x < cfg.display_width) (hy : y < cfg.display_height)
    (t : blocked_range2d) (ht : t ∈ tiles_of cfg g) (hc : t.contains y x = true) :
    (run_tiles A cfg (tiles_of cfg g) st).image.getPixel x y = tile_color A cfg t x y := by
  obtain ⟨_, hw, hcount⟩ := main_tiles_spec cfg g hW hH hg1 hg2
  obtain ⟨v1, v2, v3⟩ := hv
  obtain ⟨p1, _, p3, p4⟩ := run_tiles_pixels A cfg _ _ (tiles_of cfg g) hw st v1
  obtain ⟨e1, e2⟩ := index_div_mod cfg.display_width x y hx
  have hlt : x + y * cfg.display_width < st.image.m_pixels.length := by
    rw [v3]
    calc x + y * cfg.display_width < cfg.display_width + y * cfg.display_width := by omega
      _ = cfg.display_width * (y + 1) := by rw [Nat.mul_succ, Nat.mul_comm, Nat.add_comm]
      _ ≤ cfg.display_width * cfg.display_height := Nat.mul_le_mul_left _ hy
  have h := (p4 (x + y * cfg.display_width)).2
    (by rw [e1, e2]; exact hcount y x hy hx) hlt t ht (by rw [e1, e2]; exact hc)
  rw [e1, e2] at h
  simp only [Image.getPixel, p1, List.getD_eq_getElem?_getD, h, Option.getD_some]

/-! ## The sweep -/

theorem sweep_step_eq {R C : Type} (A : Arith R C) (cfg : Config C) (now : Nat → R) (fuel : Nat)
    (hW : 1 ≤ cfg.display_width) (hH : 1 ≤ cfg.display_height)
    (hf : cfg.display_height + cfg.display_width + 1 ≤ fuel)
    (g : Int) (hg1 : 1 ≤ g) (hg2 : g ≤ 2147483647) (s : SweepState R)
    (hv : s.image.valid cfg.display_width cfg.display_height) :
    sweep_step A cfg now fuel s g = some
      { image := (fresh_render A cfg g).image
        results := s.results ++
          [⟨g, A.sub (now (s.ticks_read + 1)) (now s.ticks_read), (tiles_of cfg g).length⟩]
        ticks_read := s.ticks_read + 2 } := by
  unfold sweep_step
  rw [parallel_for_main A cfg g hW hH hg1 hg2 fuel hf]
  simp only [run_tiles_task_count, zero_add]
  rw [(render_eq_fresh A cfg g hW hH hg1 hg2 ⟨s.image, 0⟩ hv).1]

theorem spec_sweep_step_eq {R C : Type} (A : Arith R C) (cfg : Config C) (now : Nat → R)
    (fuel : Nat) (hW : 1 ≤ cfg.display_width) (hH : 1 ≤ cfg.display_height)
    (hf : cfg.display_height + cfg.display_width + 1 ≤ fuel)
    (g : Int) (hg1 : 1 ≤ g) (hg2 : g ≤ 2147483647) (s : SweepState R) :
    spec_sweep_step A cfg now fuel s g = some
      { image := (fresh_render A cfg g).image
        results := s.results ++
          [⟨g, A.sub (now (s.ticks_read + 1)) (now s.ticks_read), (tiles_of cfg g).length⟩]
        ticks_read := s.ticks_read + 2 } := by
  unfold spec_sweep_step
  rw [parallel_for_main A cfg g hW hH hg1 hg2 fuel hf]
  simp only [run_tiles_task_count, zero_add]
  rfl

/-- The sweep of `main` over grain sizes `gs`: it ends, with the fresh render of
the last grain size as image and one row per grain size, in order. -/
theorem sweep_eq {R C : Type} (A : Arith R C) (cfg : Config C) (now : Nat → R) (fuel : Nat)
    (hW : 1 ≤ cfg.display_width) (hH : 1 ≤ cfg.display_height)
    (hf : cfg.display_height + cfg.display_width + 1 ≤ fuel) (gs : List Int) :
    (∀ g ∈ gs, 1 ≤ g ∧ g ≤ 2147483647) → ∀ s : SweepState R,
      s.image.valid cfg.display_width cfg.display_height →
      sweep A cfg now fuel gs s = some
        { image := final_image A cfg s.image gs
          results := s.results ++ expected_rows A cfg now s.ticks_read gs
          ticks_read := s.ticks_read + 2 * gs.length } := by
  induction gs with
  | nil =>
    intro _ s _
    simp [sweep, final_image, expected_rows]
  | cons g rest ih =>
    intro hgs s hv
    obtain ⟨hg1, hg2⟩ := hgs g (List.mem_cons_self _ _)
    unfold sweep
    rw [sweep_step_eq A cfg now fuel hW hH hf g hg1 hg2 s hv]
    simp only
    rw [ih (fun x hx => hgs x (List.mem_cons_of_mem _ hx)) _
      (render_eq_fresh A cfg g hW hH hg1 hg2 ⟨s.image, 0⟩ hv).2]
    simp only [final_image, expected_rows, List.append_assoc, List.singleton_append,
      List.length_cons]
    congr 2
    omega

/-- The sweep of the specification gives the same state. -/
theorem spec_sweep_eq {R C : Type} (A : Arith R C) (cfg : Config C) (now : Nat → R) (fuel : Nat)
    (hW : 1 ≤ cfg.display_width) (hH : 1 ≤ cfg.display_height)
    (hf : cfg.display_height + cfg.display_width + 1 ≤ fuel) (gs : List Int) :
    (∀ g ∈ gs, 1 ≤ g ∧ g ≤ 2147483647) → ∀ s : SweepState R,
      spec_sweep A cfg now fuel gs s = some
        { image := final_image A cfg s.image gs
          results := s.results ++ expected_rows A cfg now s.ticks_read gs
          ticks_read := s.ticks_read + 2 * gs.length } := by
  induction gs with
  | nil =>
    intro _ s
    simp [spec_sweep, final_image, expected_rows]
  | cons g rest ih =>
    intro hgs s
    obtain ⟨hg1, hg2⟩ := hgs g (List.mem_cons_self _ _)
    unfold spec_sweep
    rw [spec_sweep_step_eq A cfg now fuel hW hH hf g hg1 hg2 s]
    simp only
    rw [ih (fun x hx => hgs x (List.mem_cons_of_mem _ hx)) _]
    simp only [final_image, expected_rows, List.append_assoc, List.singleton_append,
      List.length_cons]
    congr 2
    omega

theorem main_config_ok {R C : Type} (A : Arith R C) :
    1 ≤ (main_config A).display_width ∧ 1 ≤ (main_config A).display_height ∧
    (main_config A).display_height + (main_config A).display_width + 1 = 1601 ∧
    (∀ g ∈ (main_config A).grain_sizes, 1 ≤ g ∧ g ≤ 2147483647) := by
  refine ⟨by simp [main_config], by simp [main_config], rfl, ?_⟩
  intro g hg
  simp only [main_config, List.mem_cons, List.mem_singleton, List.not_mem_nil, or_false] at hg
  omega

theorem final_image_last {R C : Type} (A : Arith R C) (cfg : Config C) (gs : List Int)
    (g : Int) : ∀ img : Image, final_image A cfg img (gs ++ [g]) = (fresh_render A cfg g).image := by
  induction gs with
  | nil => intro img; rfl
  | cons x xs ih =>
    intro img
    rw [List.cons_append, final_image]
    exact ih _

/-- What the program returns for a configuration, given enough fuel; the
harness of the specification returns the same. -/
theorem run_main_eq {R C : Type} (A : Arith R C) (cfg : Config C) (now : Nat → R) (fuel : Nat)
    (hW : 1 ≤ cfg.display_width) (hH : 1 ≤ cfg.display_height)
    (hf : cfg.display_height + cfg.display_width + 1 ≤ fuel)
    (hgs : ∀ g ∈ cfg.grain_sizes, 1 ≤ g ∧ g ≤ 2147483647) :
    run_main A cfg now fuel = some
      { results := expected_rows A cfg now 0 cfg.grain_sizes
        saved_image := final_image A cfg (Image.create cfg.display_width cfg.display_height)
          cfg.grain_sizes } ∧
    spec_harness A cfg now fuel = run_main A cfg now fuel := by
  unfold run_main spec_harness
  rw [sweep_eq A cfg now fuel hW hH hf _ hgs _ (create_valid _ _),
    spec_sweep_eq A cfg now fuel hW hH hf _ hgs _]
  simp only [Option.map_some', List.nil_append, and_self]

/-- What `main` returns, given enough fuel. -/
theorem main_eq {R C : Type} (A : Arith R C) (now : Nat → R) (fuel : Nat) (hf : 1601 ≤ fuel) :
    main A now fuel = some
      { results := expected_rows A (main_config A) now 0 [8, 16, 32, 64, 128, 256]
        saved_image := (fresh_render A (main_config A) 256).image } ∧
    spec_harness A (main_config A) now fuel = main A now fuel := by
  obtain ⟨hW, hH, hsum, hgs⟩ := main_config_ok A
  obtain ⟨h1, h2⟩ := run_main_eq A (main_config A) now fuel hW hH (by omega) hgs
  have hlist : (main_config A).grain_sizes = [8, 16, 32, 64, 128] ++ [256] := rfl
  refine ⟨?_, h2⟩
  unfold main
  rw [h1, hlist, final_image_last]
  rfl

theorem tiles_of_main_256_length {R C : Type} (A : Arith R C) :
    (tiles_of (main_config A) 256).length = 16 := by
  have h : tiles_of (main_config A) 256 =
      (simple_partition 1601 (blocked_range2d.make 0 800 256 0 800 256)).getD [] := rfl
  have h16 : ((simple_partition 1601 (blocked_range2d.make 0 800 256 0 800 256)).getD []).length
      = 16 := by decide
  rw [h]
  exact h16

theorem render_state_eq (a b : RenderState) (h1 : a.image = b.image)
    (h2 : a.task_count = b.task_count) : a = b := by
  cases a
  cases b
  simp_all

/-- Pixel `(0, 0)` after a render: the grid colour. -/
theorem render_origin {R C : Type} (A : Arith R C) (cfg : Config C) (g : Int)
    (hW : 1 ≤ cfg.display_width) (hH : 1 ≤ cfg.display_height)
    (hg1 : 1 ≤ g) (hg2 : g ≤ 2147483647) (st : RenderState)
    (hv : st.image.valid cfg.display_width cfg.display_height) :
    (run_tiles A cfg (tiles_of cfg g) st).image.getPixel 0 0 = gridColor := by
  obtain ⟨_, _, hcount⟩ := main_tiles_spec cfg g hW hH hg1 hg2
  have hpos : 0 < (tiles_of cfg g).countP (fun t => t.contains 0 0) := by
    rw [hcount 0 0 (by omega) (by omega)]
    exact Nat.one_pos
  obtain ⟨t, ht, hc⟩ := List.countP_pos_iff.1 hpos
  rw [render_pixel A cfg g hW hH hg1 hg2 st hv 0 0 (by omega) (by omega) t ht hc]
  simp only [blocked_range2d.contains, decide_eq_true_eq] at hc
  have h0 : 0 = t.my_rows.my_begin := by omega
  simp [tile_color, h0]

theorem fresh_render_origin {R C : Type} (A : Arith R C) (cfg : Config C) (g : Int)
    (hW : 1 ≤ cfg.display_width) (hH : 1 ≤ cfg.display_height)
    (hg1 : 1 ≤ g) (hg2 : g ≤ 2147483647) :
    (fresh_render A cfg g).image.getPixel 0 0 = gridColor :=
  render_origin A cfg g hW hH hg1 hg2
    ⟨Image.create cfg.display_width cfg.display_height, 0⟩ (create_valid _ _)

theorem saved_pixel {R : Type} (rows : List (ReportRow R)) (img : Image) (x y : Nat) (c : Color)
    (h : img.getPixel x y = c) : (MainOutput.mk rows img).saved_image.getPixel x y = c := h

/-! ## C7: the end-to-end scenario -/

/-- C7. With the viewport, raster and grain sizes of `main` and enough fuel: the
render with grain size 256 into a fresh image ends with `task_count = 16` and
the grid colour (white) at pixel `(0, 0)`; `main` returns, its last report
row is `256 <elapsed> 16`, and pixel `(0, 0)` of the image it saves is white. -/
theorem end_to_end_grain_256 {R C : Type} (A : Arith R C) (now : Nat → R) (fuel : Nat)
    (hf : 1601 ≤ fuel) :
    (∃ st, parallel_for A (main_config A) fuel (main_range (main_config A) 256)
        ⟨Image.create 800 800, 0⟩ = some st ∧
      st.task_count = 16 ∧ st.image.getPixel 0 0 = Color.White) ∧
    (∃ out, main A now fuel = some out ∧
      out.results.getLast? = some ⟨256, A.sub (now 11) (now 10), 16⟩ ∧
      out.saved_image.getPixel 0 0 = Color.White) := by
  obtain ⟨hW, hH, hsum, hgs⟩ := main_config_ok A
  have hg : (1 : Int) ≤ 256 ∧ (256 : Int) ≤ 2147483647 := by decide
  have hcreate : (Image.create 800 800).valid (main_config A).display_width
      (main_config A).display_height := create_valid 800 800
  have hfuel : (main_config A).display_height + (main_config A).display_width + 1 ≤ fuel := by
    omega
  have hp := parallel_for_main A (main_config A) 256 hW hH hg.1 hg.2 fuel hfuel
    ⟨Image.create 800 800, 0⟩
  constructor
  · refine ⟨run_tiles A (main_config A) (tiles_of (main_config A) 256)
      ⟨Image.create 800 800, 0⟩, hp, ?_, ?_⟩
    · rw [run_tiles_task_count, tiles_of_main_256_length]
      rfl
    · exact render_origin A (main_config A) 256 hW hH hg.1 hg.2 ⟨Image.create 800 800, 0⟩ hcreate
  · refine ⟨⟨expected_rows A (main_config A) now 0 [8, 16, 32, 64, 128, 256],
      (fresh_render A (main_config A) 256).image⟩, (main_eq A now fuel hf).1, ?_, ?_⟩
    · simp only [expected_rows, tiles_of_main_256_length]
      rfl
    · exact saved_pixel _ _ 0 0 _ (fresh_render_origin A (main_config A) 256 hW hH hg.1 hg.2)

/-- C7 in exact arithmetic, with every clock reading 0 and fuel 1601. -/
theorem end_to_end_grain_256_witness :
    (∃ st, parallel_for exactArith (main_config exactArith) 1601
        (main_range (main_config exactArith) 256) ⟨Image.create 800 800, 0⟩ = some st ∧
      st.task_count = 16 ∧ st.image.getPixel 0 0 = Color.White) ∧
    (∃ out, main exactArith (fun _ => (0 : ℚ)) 1601 = some out ∧
      out.results.getLast? = some ⟨256, exactArith.sub (0 : ℚ) 0, 16⟩ ∧
      out.saved_image.getPixel 0 0 = Color.White) :=
  end_to_end_grain_256 exactArith (fun _ => (0 : ℚ)) 1601 (by decide)

/-! ## C8: the benchmark report -/

/-- C8. Given enough fuel, whatever the clock readings, `main` returns, and its
report has exactly one row per grain size in the order 8, 16, 32, 64, 128,
256: the grain field is the grain size, the elapsed time the difference of the
two readings around that run, and the task count the number of tiles of the
decomposition for that grain size alone (which is what a run from
`task_count = 0` counts). -/
theorem report_rows_in_order {R C : Type} (A : Arith R C) (now : Nat → R) (fuel : Nat)
    (hf : 1601 ≤ fuel) :
    (∃ out, main A now fuel = some out ∧
      out.results =
        [⟨8, A.sub (now 1) (now 0), (tiles_of (main_config A) 8).length⟩,
         ⟨16, A.sub (now 3) (now 2), (tiles_of (main_config A) 16).length⟩,
         ⟨32, A.sub (now 5) (now 4), (tiles_of (main_config A) 32).length⟩,
         ⟨64, A.sub (now 7) (now 6), (tiles_of (main_config A) 64).length⟩,
         ⟨128, A.sub (now 9) (now 8), (tiles_of (main_config A) 128).length⟩,
         ⟨256, A.sub (now 11) (now 10), (tiles_of (main_config A) 256).length⟩] ∧
      out.results.map (fun row => row.grain) = (main_config A).grain_sizes) ∧
    (∀ g ∈ (main_config A).grain_sizes, ∀ img : Image,
      simple_partition fuel (main_range (main_config A) g) = some (tiles_of (main_config A) g) ∧
      (parallel_for A (main_config A) fuel (main_range (main_config A) g) ⟨img, 0⟩).map
        (fun st => st.task_count) = some ((tiles_of (main_config A) g).length : Int)) := by
  obtain ⟨hW, hH, hsum, hgs⟩ := main_config_ok A
  have hfuel : (main_config A).display_height + (main_config A).display_width + 1 ≤ fuel := by
    omega
  constructor
  · refine ⟨⟨expected_rows A (main_config A) now 0 [8, 16, 32, 64, 128, 256],
      (fresh_render A (main_config A) 256).image⟩, (main_eq A now fuel hf).1, rfl, rfl⟩
  · intro g hg img
    obtain ⟨hg1, hg2⟩ := hgs g hg
    refine ⟨(main_tiles_spec (main_config A) g hW hH hg1 hg2).1 fuel hfuel, ?_⟩
    rw [parallel_for_main A (main_config A) g hW hH hg1 hg2 fuel hfuel]
    simp only [Option.map_some', run_tiles_task_count, zero_add]

/-- C8 in exact arithmetic, with every clock reading 0 and fuel 1601. -/
theorem report_rows_in_order_witness :
    (∃ out, main exactArith (fun _ => (0 : ℚ)) 1601 = some out ∧
      out.results =
        [⟨8, exactArith.sub (0 : ℚ) 0, (tiles_of (main_config exactArith) 8).length⟩,
         ⟨16, exactArith.sub (0 : ℚ) 0, (tiles_of (main_config exactArith) 16).length⟩,
         ⟨32, exactArith.sub (0 : ℚ) 0, (tiles_of (main_config exactArith) 32).length⟩,
         ⟨64, exactArith.sub (0 : ℚ) 0, (tiles_of (main_config exactArith) 64).length⟩,
         ⟨128, exactArith.sub (0 : ℚ) 0, (tiles_of (main_config exactArith) 128).length⟩,
         ⟨256, exactArith.sub (0 : ℚ) 0, (tiles_of (main_config exactArith) 256).length⟩] ∧
      out.results.map (fun row => row.grain) = (main_config exactArith).grain_sizes) ∧
    (∀ g ∈ (main_config exactArith).grain_sizes, ∀ img : Image,
      simple_partition 1601 (main_range (main_config exactArith) g) =
        some (tiles_of (main_config exactArith) g) ∧
      (parallel_for exactArith (main_config exactArith) 1601
        (main_range (main_config exactArith) g) ⟨img, 0⟩).map
        (fun st => st.task_count) = some ((tiles_of (main_config exactArith) g).length : Int)) :=
  report_rows_in_order exactArith (fun _ => (0 : ℚ)) 1601 (by decide)

theorem saved_image_mk {R : Type} (rows : List (ReportRow R)) (img : Image) :
    (MainOutput.mk rows img).saved_image = img := rfl

/-! ## C9: the image saved at the end of the sweep -/

/-- C9. Given enough fuel, `main` (which creates the image once and reuses it for
every grain size) returns exactly what the harness of the specification (a
fresh buffer for every grain size) returns, and the image it saves is, pixel
for pixel, the image of one render with grain size 256 into a freshly created
`800 × 800` image. -/
theorem saved_image_is_fresh_render_256 {R C : Type} (A : Arith R C) (now : Nat → R)
    (fuel : Nat) (hf : 1601 ≤ fuel) :
    ∃ out st, main A now fuel = some out ∧
      spec_harness A (main_config A) now fuel = some out ∧
      parallel_for A (main_config A) fuel (main_range (main_config A) 256)
        ⟨Image.create 800 800, 0⟩ = some st ∧
      out.saved_image = st.image := by
  obtain ⟨hW, hH, hsum, hgs⟩ := main_config_ok A
  have hg : (1 : Int) ≤ 256 ∧ (256 : Int) ≤ 2147483647 := by decide
  have hcreate : (Image.create 800 800).valid (main_config A).display_width
      (main_config A).display_height := create_valid 800 800
  have hfuel : (main_config A).display_height + (main_config A).display_width + 1 ≤ fuel := by
    omega
  obtain ⟨hm, hs⟩ := main_eq A now fuel hf
  refine ⟨⟨expected_rows A (main_config A) now 0 [8, 16, 32, 64, 128, 256],
      (fresh_render A (main_config A) 256).image⟩,
    run_tiles A (main_config A) (tiles_of (main_config A) 256) ⟨Image.create 800 800, 0⟩,
    hm, hs.trans hm,
    parallel_for_main A (main_config A) 256 hW hH hg.1 hg.2 fuel hfuel ⟨Image.create 800 800, 0⟩,
    ?_⟩
  exact (saved_image_mk _ _).trans
    (render_eq_fresh A (main_config A) 256 hW hH hg.1 hg.2 ⟨Image.create 800 800, 0⟩ hcreate).1.symm

/-- C9 in exact arithmetic, with every clock reading 0 and fuel 1601. -/
theorem saved_image_is_fresh_render_256_witness :
    ∃ out st, main exactArith (fun _ => (0 : ℚ)) 1601 = some out ∧
      spec_harness exactArith (main_config exactArith) (fun _ => (0 : ℚ)) 1601 = some out ∧
      parallel_for exactArith (main_config exactArith) 1601
        (main_range (main_config exactArith) 256) ⟨Image.create 800 800, 0⟩ = some st ∧
      out.saved_image = st.image :=
  saved_image_is_fresh_render_256 exactArith (fun _ => (0 : ℚ)) 1601 (by decide)

/-! ## C10: the order of the tiles does not matter -/

/-- C10. For a raster with `W, H ≥ 1` and an `int` grain size `g ≥ 1`, let `tiles`
be the tiles of the decomposition.  Running the tile bodies one after another
in any permuted order, from any state whose image has the size of the raster,
gives the same state (image and `task_count`) as running them in the order of
`tiles`; and two renders from any two such images give identical images. -/
theorem tile_order_irrelevant {R C : Type} (A : Arith R C) (cfg : Config C) (g : Int)
    (hW : 1 ≤ cfg.display_width) (hH : 1 ≤ cfg.display_height)
    (hg1 : 1 ≤ g) (hg2 : g ≤ 2147483647) :
    ∃ tiles : List blocked_range2d,
      (∀ fuel, cfg.display_height + cfg.display_width + 1 ≤ fuel →
        simple_partition fuel (main_range cfg g) = some tiles) ∧
      (∀ tiles2 : List blocked_range2d, tiles.Perm tiles2 →
        ∀ st : RenderState, st.image.valid cfg.display_width cfg.display_height →
          run_tiles A cfg tiles2 st = run_tiles A cfg tiles st) ∧
      (∀ st1 st2 : RenderState,
        st1.image.valid cfg.display_width cfg.display_height →
        st2.image.valid cfg.display_width cfg.display_height →
          (run_tiles A cfg tiles st1).image = (run_tiles A cfg tiles st2).image) := by
  obtain ⟨hsome, hw, hcount⟩ := main_tiles_spec cfg g hW hH hg1 hg2
  refine ⟨tiles_of cfg g, hsome, ?_, ?_⟩
  · intro tiles2 hperm st hv
    apply render_state_eq
    · exact (run_tiles_image_eq A cfg _ _ _ _ hperm hw hcount st st hv hv).1.symm
    · rw [run_tiles_task_count, run_tiles_task_count, hperm.length_eq]
  · intro st1 st2 hv1 hv2
    exact (run_tiles_image_eq A cfg _ _ _ _ (List.Perm.refl _) hw hcount st1 st2 hv1 hv2).1

/-- C10 in exact arithmetic for a raster of 5 columns and 3 rows, the viewport
of `main` and grain size 2. -/
theorem tile_order_irrelevant_witness :
    ∃ tiles : List blocked_range2d,
      (∀ fuel, 3 + 5 + 1 ≤ fuel →
        simple_partition fuel
          (main_range (⟨5, 3, (-2.2, 1.5), (0.8, -1.5), [2]⟩ : Config (ℚ × ℚ)) 2) = some tiles) ∧
      (∀ tiles2 : List blocked_range2d, tiles.Perm tiles2 →
        ∀ st : RenderState, st.image.valid 5 3 →
          run_tiles exactArith ⟨5, 3, (-2.2, 1.5), (0.8, -1.5), [2]⟩ tiles2 st =
            run_tiles exactArith ⟨5, 3, (-2.2, 1.5), (0.8, -1.5), [2]⟩ tiles st) ∧
      (∀ st1 st2 : RenderState, st1.image.valid 5 3 → st2.image.valid 5 3 →
          (run_tiles exactArith ⟨5, 3, (-2.2, 1.5), (0.8, -1.5), [2]⟩ tiles st1).image =
            (run_tiles exactArith ⟨5, 3, (-2.2, 1.5), (0.8, -1.5), [2]⟩ tiles st2).image) :=
  tile_order_irrelevant exactArith ⟨5, 3, (-2.2, 1.5), (0.8, -1.5), [2]⟩ 2
    (by decide) (by decide) (by decide) (by decide)

/-! ## C11: grain sizes that are not positive -/

theorem toSizeT_of_neg {g : Int} (h1 : -2147483648 ≤ g) (h2 : g < 0) :
    toSizeT g = (18446744073709551616 + g).toNat := by
  unfold toSizeT
  omega

theorem toSizeT_zero : toSizeT 0 = 0 := by decide

/-- A range with both grain sizes 0 and at least one pixel is split forever. -/
theorem simple_partition_grain_zero (fuel : Nat) :
    ∀ r : blocked_range2d, r.my_rows.my_grainsize = 0 → r.my_cols.my_grainsize = 0 →
      1 ≤ r.my_rows.size → 1 ≤ r.my_cols.size → simple_partition fuel r = none := by
  induction fuel with
  | zero => intro r _ _ _ _; rfl
  | succ n ih =>
    intro r hgr hgc hr hc
    have hd : r.is_divisible = true := by
      simp [blocked_range2d.is_divisible, blocked_range.is_divisible, hgr]
      omega
    have hs : r.do_split.2 = { r with my_rows := r.my_rows.do_split.2 } := by
      unfold blocked_range2d.do_split
      simp [hgr, hgc]
    obtain ⟨_, s2, _, g2⟩ := range_split_size r.my_rows
    have hnone : simple_partition n r.do_split.2 = none := by
      apply ih
      · rw [hs]; simp only; rw [g2]; exact hgr
      · rw [hs]; exact hgc
      · rw [hs]; simp only; rw [s2]; omega
      · rw [hs]; exact hc
    unfold simple_partition
    simp only [hd, if_true, hnone]
    cases simple_partition n r.do_split.1 <;> rfl

/-- A sweep over grain sizes among which one makes the splitting run forever
has no result. -/
theorem sweep_none {R C : Type} (A : Arith R C) (cfg : Config C) (now : Nat → R) (fuel : Nat)
    (g0 : Int) (h0 : simple_partition fuel (main_range cfg g0) = none) (gs : List Int) :
    g0 ∈ gs → ∀ s : SweepState R, sweep A cfg now fuel gs s = none := by
  induction gs with
  | nil => intro h; simp at h
  | cons g rest ih =>
    intro hmem s
    unfold sweep
    cases hstep : sweep_step A cfg now fuel s g with
    | none => rfl
    | some s1 =>
      simp only
      rcases List.mem_cons.1 hmem with h | h
      · exfalso
        subst h
        simp [sweep_step, parallel_for, h0] at hstep
      · exact ih h s1

/-- A negative `int` grain size becomes a grain size larger than any raster:
the range is not divisible and is its own single tile. -/
theorem simple_partition_grain_negative {C : Type} (cfg : Config C) (g : Int)
    (hW : cfg.display_width ≤ 2147483647) (hH : cfg.display_height ≤ 2147483647)
    (hg1 : -2147483648 ≤ g) (hg2 : g < 0) (fuel : Nat) (hf : 1 ≤ fuel) :
    simple_partition fuel (main_range cfg g) = some [main_range cfg g] := by
  obtain ⟨n, rfl⟩ : ∃ n, fuel = n + 1 := ⟨fuel - 1, by omega⟩
  have hs := toSizeT_of_neg hg1 hg2
  have hd : (main_range cfg g).is_divisible = false := by
    simp only [blocked_range2d.is_divisible, blocked_range.is_divisible, main_range,
      blocked_range2d.make, blocked_range.size, hs, Bool.or_eq_false_iff, decide_eq_false_iff_not]
    omega
  unfold simple_partition
  simp [hd]

/-- C11, as the code has it. The code has no `InvalidGrain` condition. For a raster
with `W, H ≥ 1` (of `int` size): a negative `int` grain size gives, without any
failure, exactly one tile, the whole raster, and the run counts one task; with
grain size 0 the splitting never ends, whatever the fuel, and a sweep whose
grain sizes include 0 has no result at all (no row is skipped, none is
written); every grain size `g ≥ 1` gives a non-empty list of tiles. -/
theorem nonpositive_grain_behaviour {R C : Type} (A : Arith R C) (cfg : Config C)
    (now : Nat → R)
    (hW1 : 1 ≤ cfg.display_width) (hW2 : cfg.display_width ≤ 2147483647)
    (hH1 : 1 ≤ cfg.display_height) (hH2 : cfg.display_height ≤ 2147483647) :
    (∀ g : Int, -2147483648 ≤ g → g < 0 → ∀ fuel, 1 ≤ fuel → ∀ st : RenderState,
      simple_partition fuel (main_range cfg g) = some [main_range cfg g] ∧
      (∀ row col, (main_range cfg g).contains row col = true ↔
        row < cfg.display_height ∧ col < cfg.display_width) ∧
      (parallel_for A cfg fuel (main_range cfg g) st).map (fun s => s.task_count) =
        some (st.task_count + 1)) ∧
    (∀ fuel, simple_partition fuel (main_range cfg 0) = none) ∧
    (0 ∈ cfg.grain_sizes → ∀ fuel, run_main A cfg now fuel = none) ∧
    (∀ g : Int, 1 ≤ g → g ≤ 2147483647 → ∀ fuel,
      cfg.display_height + cfg.display_width + 1 ≤ fuel →
      ∃ tiles, simple_partition fuel (main_range cfg g) = some tiles ∧ tiles ≠ []) := by
  have hzero : ∀ fuel, simple_partition fuel (main_range cfg 0) = none := by
    intro fuel
    apply simple_partition_grain_zero
    · simp [main_range, blocked_range2d.make, toSizeT_zero]
    · simp [main_range, blocked_range2d.make, toSizeT_zero]
    · simpa [main_range, blocked_range2d.make, blocked_range.size] using hH1
    · simpa [main_range, blocked_range2d.make, blocked_range.size] using hW1
  refine ⟨?_, hzero, ?_, ?_⟩
  · intro g hg1 hg2 fuel hf st
    have hs := simple_partition_grain_negative cfg g hW2 hH2 hg1 hg2 fuel hf
    refine ⟨hs, ?_, ?_⟩
    · intro row col
      simp [blocked_range2d.contains, main_range, blocked_range2d.make]
    · simp only [parallel_for, hs, Option.map_some', run_tiles_task_count, List.length_singleton,
        Nat.cast_one]
  · intro hmem fuel
    unfold run_main
    rw [sweep_none A cfg now fuel 0 (hzero fuel) _ hmem]
    rfl
  · intro g hg1 hg2 fuel hf
    obtain ⟨hsome, _, hcount⟩ := main_tiles_spec cfg g hW1 hH1 hg1 hg2
    refine ⟨tiles_of cfg g, hsome fuel hf, ?_⟩
    intro hnil
    have h := hcount 0 0 (by omega) (by omega)
    rw [hnil] at h
    simp at h

/-- C11 at the raster of `main` in exact arithmetic, with every clock reading 0. -/
theorem nonpositive_grain_behaviour_witness :
    (∀ g : Int, -2147483648 ≤ g → g < 0 → ∀ fuel, 1 ≤ fuel → ∀ st : RenderState,
      simple_partition fuel (main_range (main_config exactArith) g) =
        some [main_range (main_config exactArith) g] ∧
      (∀ row col, (main_range (main_config exactArith) g).contains row col = true ↔
        row < (main_config exactArith).display_height ∧
          col < (main_config exactArith).display_width) ∧
      (parallel_for exactArith (main_config exactArith) fuel
          (main_range (main_config exactArith) g) st).map (fun s => s.task_count) =
        some (st.task_count + 1)) ∧
    (∀ fuel, simple_partition fuel (main_range (main_config exactArith) 0) = none) ∧
    (0 ∈ (main_config exactArith).grain_sizes →
      ∀ fuel, run_main exactArith (main_config exactArith) (fun _ => (0 : ℚ)) fuel = none) ∧
    (∀ g : Int, 1 ≤ g → g ≤ 2147483647 → ∀ fuel,
      (main_config exactArith).display_height + (main_config exactArith).display_width + 1
        ≤ fuel →
      ∃ tiles, simple_partition fuel (main_range (main_config exactArith) g) = some tiles ∧
        tiles ≠ []) :=
  nonpositive_grain_behaviour exactArith (main_config exactArith) (fun _ => (0 : ℚ))
    (by decide) (by decide) (by decide) (by decide)

/-- C11 as stated fails: for the raster of `main` and grain size `-1` the
decomposition does not fail but gives one tile, the whole raster, and the
render counts one task. -/
theorem negative_grain_gives_one_tile :
    simple_partition 1601 (blocked_range2d.make 0 800 (-1) 0 800 (-1)) =
      some [blocked_range2d.make 0 800 (-1) 0 800 (-1)] ∧
    (parallel_for exactArith (main_config exactArith) 1601
        (main_range (main_config exactArith) (-1)) ⟨Image.create 800 800, 0⟩).map
      RenderState.task_count = some 1 := by
  have h : simple_partition 1601 (main_range (main_config exactArith) (-1)) =
      some [main_range (main_config exactArith) (-1)] :=
    simple_partition_grain_negative (main_config exactArith) (-1) (by decide) (by decide)
      (by decide) (by decide) 1601 (by decide)
  refine ⟨h, ?_⟩
  simp only [parallel_for, h, Option.map_some', run_tiles_task_count, List.length_singleton]
  rfl

/-! ## C12: `mandelbrot` is the escape time -/

/-- The loop of `mandelbrot`, entered at counter `i` with `z = z_i` after the
test passed at all earlier indices, returns the first index from `i` on at
which the test fails, or 256. -/
theorem mandelbrot_loop_spec {R C : Type} (A : Arith R C) (c : C) (m : Nat) :
    ∀ (i : Nat) (hi : i ≤ 256), 256 - i = m →
      (∀ j, j < i → in_bound A (orbit A c j) = true) →
      i ≤ mandelbrot_loop A c i hi (orbit A c i) ∧
      mandelbrot_loop A c i hi (orbit A c i) ≤ 256 ∧
      (∀ j, j < mandelbrot_loop A c i hi (orbit A c i) → in_bound A (orbit A c j) = true) ∧
      (mandelbrot_loop A c i hi (orbit A c i) < 256 →
        in_bound A (orbit A c (mandelbrot_loop A c i hi (orbit A c i))) = false) := by
  induction m with
  | zero =>
    intro i hi hm hprev
    have h256 : i = 256 := by omega
    subst h256
    rw [mandelbrot_loop]
    simp only [ne_eq, not_true_eq_false, false_and, dite_false]
    exact ⟨le_refl _, le_refl _, hprev, fun h => absurd h (by omega)⟩
  | succ k ih =>
    intro i hi hm hprev
    have hne : i ≠ 256 := by omega
    rw [mandelbrot_loop]
    by_cases ht : A.lt (A.norm (orbit A c i)) (A.lit 4) = true
    · simp only [hne, ne_eq, not_false_eq_true, ht, and_self, dite_true]
      have hnext := ih (i + 1) (by omega) (by omega) (by
        intro j hj
        by_cases hji : j = i
        · rw [hji]
          exact ht
        · exact hprev j (by omega))
      have horb : orbit A c (i + 1) = A.cadd (A.cmul (orbit A c i) (orbit A c i)) c := rfl
      rw [horb] at hnext
      exact ⟨by omega, hnext.2.1, hnext.2.2.1, hnext.2.2.2⟩
    · have hf : ¬ (i ≠ 256 ∧ A.lt (A.norm (orbit A c i)) (A.lit 4) = true) := fun h => ht h.2
      simp only [dif_neg hf]
      refine ⟨le_refl _, hi, hprev, fun _ => ?_⟩
      simpa [in_bound] using ht

/-- C12. For every point `c`, `mandelbrot(c)` returns a count `n` with
`0 ≤ n ≤ 256` that is the escape time of the orbit `z_0 = c`,
`z_(j+1) = z_j * z_j + c`: the test `norm(z_j) < 4.` passes at every `j < n`,
it fails at `z_n` when `n < 256` (so `n` is the least index at which the
squared magnitude reaches 4), and `n = 256` exactly when the test passes at
every `j` in `0..255`. -/
theorem mandelbrot_is_escape_time {R C : Type} (A : Arith R C) (c : C) :
    ∃ n : Nat, mandelbrot A c = (n : Int) ∧ n ≤ 256 ∧
      (∀ j, j < n → in_bound A (orbit A c j) = true) ∧
      (n < 256 → in_bound A (orbit A c n) = false) ∧
      (n = 256 ↔ ∀ j, j ≤ 255 → in_bound A (orbit A c j) = true) := by
  obtain ⟨_, h2, h3, h4⟩ := mandelbrot_loop_spec A c 256 0 (by decide) rfl
    (fun j hj => absurd hj (by omega))
  refine ⟨mandelbrot_loop A c 0 (by decide) c, rfl, h2, h3, h4, ?_⟩
  constructor
  · intro hn j hj
    exact h3 j (by
      have : mandelbrot_loop A c 0 (by decide) (orbit A c 0) = 256 := hn
      omega)
  · intro hall
    by_contra hne
    have hlt : mandelbrot_loop A c 0 (by decide) (orbit A c 0) < 256 := by
      have : mandelbrot_loop A c 0 (by decide) (orbit A c 0) ≠ 256 := hne
      omega
    have hfail := h4 hlt
    rw [hall _ (by omega)] at hfail
    exact absurd hfail (by decide)

/-! ## C13: what the body of one tile does -/

theorem pixel_index_lt (W H x y : Nat) (hx : x < W) (hy : y < H) : x + y * W < W * H := by
  calc x + y * W < W + y * W := by omega
    _ = W * (y + 1) := by rw [Nat.mul_succ, Nat.mul_comm, Nat.add_comm]
    _ ≤ W * H := Nat.mul_le_mul_left _ hy

/-- C13. After the body of the lambda has run on a non-empty tile inside the
raster, from a state whose image has the size of the raster: `task_count` is
one more; the image keeps its size; every pixel of the tile on its first row
or first column has the grid colour (white); every other pixel `(row, column)`
of the tile has `to_color(mandelbrot(top_left + (delta_x * column, delta_y * row)))`;
every pixel of the raster outside the tile is as before.  Here `delta_x` and
`delta_y` are `diff.real() / W` and `diff.imag() / H` with
`diff = lower_right - top_left`, which in exact arithmetic are
`(lower_right.real - top_left.real) / W` and `(lower_right.imag - top_left.imag) / H`. -/
theorem tile_body_postcondition {R C : Type} (A : Arith R C) (cfg : Config C)
    (t : blocked_range2d) (st : RenderState)
    (hv : st.image.valid cfg.display_width cfg.display_height)
    (hw : t.within cfg.display_height cfg.display_width) :
    (tile_body A cfg t st).task_count = st.task_count + 1 ∧
    (tile_body A cfg t st).image.valid cfg.display_width cfg.display_height ∧
    gridColor = Color.White ∧
    (∀ column row, column < cfg.display_width → row < cfg.display_height →
      (t.contains row column = true →
        (row = t.my_rows.my_begin ∨ column = t.my_cols.my_begin) →
        (tile_body A cfg t st).image.getPixel column row = gridColor) ∧
      (t.contains row column = true →
        ¬ (row = t.my_rows.my_begin ∨ column = t.my_cols.my_begin) →
        (tile_body A cfg t st).image.getPixel column row =
          to_color (mandelbrot A (A.cadd cfg.top_left
            (A.cplx (A.mul (delta_x A cfg) (A.ofInt column))
              (A.mul (delta_y A cfg) (A.ofInt row)))))) ∧
      (t.contains row column = false →
        (tile_body A cfg t st).image.getPixel column row = st.image.getPixel column row)) ∧
    delta_x A cfg =
      A.div (A.real (A.csub cfg.lower_right cfg.top_left)) (A.ofInt cfg.display_width) ∧
    delta_y A cfg =
      A.div (A.imag (A.csub cfg.lower_right cfg.top_left)) (A.ofInt cfg.display_height) ∧
    (∀ e : Config (ℚ × ℚ),
      delta_x exactArith e = (e.lower_right.1 - e.top_left.1) / (e.display_width : ℚ) ∧
      delta_y exactArith e = (e.lower_right.2 - e.top_left.2) / (e.display_height : ℚ)) := by
  obtain ⟨v1, v2, v3⟩ := hv
  obtain ⟨p1, p2, p3, p4⟩ := paints_tile_body A cfg t _ _ hw st.task_count st.image v1
  have p1 : (tile_body A cfg t st).image.m_size_x = cfg.display_width := p1
  have p2 : (tile_body A cfg t st).image.m_size_y = st.image.m_size_y := p2
  have p3 : (tile_body A cfg t st).image.m_pixels.length = st.image.m_pixels.length := p3
  have p4 : ∀ j,
      (t.contains (j / cfg.display_width) (j % cfg.display_width) = true →
        j < st.image.m_pixels.length →
        (tile_body A cfg t st).image.m_pixels[j]? =
          some (tile_color A cfg t (j % cfg.display_width) (j / cfg.display_width))) ∧
      (¬ t.contains (j / cfg.display_width) (j % cfg.display_width) = true →
        (tile_body A cfg t st).image.m_pixels[j]? = st.image.m_pixels[j]?) := p4
  have hpix : ∀ column row, column < cfg.display_width → row < cfg.display_height →
      (t.contains row column = true →
        (tile_body A cfg t st).image.getPixel column row = tile_color A cfg t column row) ∧
      (t.contains row column = false →
        (tile_body A cfg t st).image.getPixel column row = st.image.getPixel column row) := by
    intro x y hx hy
    obtain ⟨e1, e2⟩ := index_div_mod cfg.display_width x y hx
    have hlt : x + y * cfg.display_width < st.image.m_pixels.length := by
      rw [v3]
      exact pixel_index_lt _ _ _ _ hx hy
    constructor
    · intro hc
      have h := (p4 (x + y * cfg.display_width)).1 (by rw [e1, e2]; exact hc) hlt
      rw [e1, e2] at h
      simp only [Image.getPixel, p1, List.getD_eq_getElem?_getD, h, Option.getD_some]
    · intro hc
      have h := (p4 (x + y * cfg.display_width)).2 (by rw [e1, e2, hc]; decide)
      simp only [Image.getPixel, p1, v1, List.getD_eq_getElem?_getD, h]
  refine ⟨rfl, ⟨p1, p2.trans v2, p3.trans v3⟩, rfl, ?_, rfl, rfl, ?_⟩
  · intro x y hx hy
    obtain ⟨h1, h2⟩ := hpix x y hx hy
    refine ⟨?_, ?_, h2⟩
    · intro hc hedge
      rw [h1 hc, tile_color, if_pos hedge]
    · intro hc hedge
      rw [h1 hc, tile_color, if_neg hedge]
      rfl
  · intro e
    exact ⟨rfl, rfl⟩

/-- C13 in exact arithmetic: the tile `[1,3) × [2,5)` of a raster of 5 columns
and 3 rows with the viewport of `main`, run on a fresh image. -/
theorem tile_body_postcondition_witness :
    (tile_body exactArith ⟨5, 3, (-2.2, 1.5), (0.8, -1.5), [2]⟩ ⟨⟨3, 1, 2⟩, ⟨5, 2, 2⟩⟩ ⟨Image.create 5 3, 0⟩).task_count = 0 + 1 ∧
    (tile_body exactArith ⟨5, 3, (-2.2, 1.5), (0.8, -1.5), [2]⟩ ⟨⟨3, 1, 2⟩, ⟨5, 2, 2⟩⟩ ⟨Image.create 5 3, 0⟩).image.valid 5 3 ∧
    gridColor = Color.White ∧
    (∀ column row, column < 5 → row < 3 →
      ((⟨⟨3, 1, 2⟩, ⟨5, 2, 2⟩⟩ : blocked_range2d).contains row column = true →
        (row = 1 ∨ column = 2) →
        (tile_body exactArith ⟨5, 3, (-2.2, 1.5), (0.8, -1.5), [2]⟩ ⟨⟨3, 1, 2⟩, ⟨5, 2, 2⟩⟩ ⟨Image.create 5 3, 0⟩).image.getPixel column row = gridColor) ∧
      ((⟨⟨3, 1, 2⟩, ⟨5, 2, 2⟩⟩ : blocked_range2d).contains row column = true →
        ¬ (row = 1 ∨ column = 2) →
        (tile_body exactArith ⟨5, 3, (-2.2, 1.5), (0.8, -1.5), [2]⟩ ⟨⟨3, 1, 2⟩, ⟨5, 2, 2⟩⟩ ⟨Image.create 5 3, 0⟩).image.getPixel column row =
          to_color (mandelbrot exactArith (exactArith.cadd ((-2.2 : ℚ), (1.5 : ℚ))
            (exactArith.cplx
              (exactArith.mul (delta_x exactArith ⟨5, 3, (-2.2, 1.5), (0.8, -1.5), [2]⟩) (exactArith.ofInt column))
              (exactArith.mul (delta_y exactArith ⟨5, 3, (-2.2, 1.5), (0.8, -1.5), [2]⟩) (exactArith.ofInt row)))))) ∧
      ((⟨⟨3, 1, 2⟩, ⟨5, 2, 2⟩⟩ : blocked_range2d).contains row column = false →
        (tile_body exactArith ⟨5, 3, (-2.2, 1.5), (0.8, -1.5), [2]⟩ ⟨⟨3, 1, 2⟩, ⟨5, 2, 2⟩⟩ ⟨Image.create 5 3, 0⟩).image.getPixel column row =
          (Image.create 5 3).getPixel column row)) ∧
    delta_x exactArith ⟨5, 3, (-2.2, 1.5), (0.8, -1.5), [2]⟩ =
      exactArith.div (exactArith.real (exactArith.csub ((0.8 : ℚ), (-1.5 : ℚ))
        ((-2.2 : ℚ), (1.5 : ℚ)))) (exactArith.ofInt (5 : Nat)) ∧
    delta_y exactArith ⟨5, 3, (-2.2, 1.5), (0.8, -1.5), [2]⟩ =
      exactArith.div (exactArith.imag (exactArith.csub ((0.8 : ℚ), (-1.5 : ℚ))
        ((-2.2 : ℚ), (1.5 : ℚ)))) (exactArith.ofInt (3 : Nat)) ∧
    (∀ e : Config (ℚ × ℚ),
      delta_x exactArith e = (e.lower_right.1 - e.top_left.1) / (e.display_width : ℚ) ∧
      delta_y exactArith e = (e.lower_right.2 - e.top_left.2) / (e.display_height : ℚ)) :=
  tile_body_postcondition exactArith ⟨5, 3, (-2.2, 1.5), (0.8, -1.5), [2]⟩ ⟨⟨3, 1, 2⟩, ⟨5, 2, 2⟩⟩ ⟨Image.create 5 3, 0⟩ (create_valid 5 3)
    (by simp [blocked_range2d.within])

/-! ## C14: bounds on the size of a tile -/

/-- A dimension larger than the grain size is cut into chunks of at least
`ceil(g / 2)` pixels. -/
theorem halving_chunks_lower (n : Nat) :
    ∀ r : blocked_range, r.size = n → r.my_grainsize < n → 1 ≤ r.my_grainsize →
      ∀ c ∈ halving_chunks r, ceil_div r.my_grainsize 2 ≤ c.size := by
  induction n using Nat.strong_induction_on with
  | _ n ih =>
    intro r hn hlt hg c hc
    have hd : r.is_divisible = true := by
      simp only [blocked_range.is_divisible, decide_eq_true_eq]
      omega
    obtain ⟨s1, s2, g1, g2⟩ := range_split_size r
    rw [halving_chunks_split r hd hg, List.mem_append] at hc
    have hceil : ceil_div r.my_grainsize 2 = (r.my_grainsize + 1) / 2 := rfl
    have key : ∀ ch : blocked_range, ch.my_grainsize = r.my_grainsize →
        r.size / 2 ≤ ch.size → ch.size < n → c ∈ halving_chunks ch →
        ceil_div r.my_grainsize 2 ≤ c.size := by
      intro ch hgch hsz hsm hmem
      by_cases hdiv : ch.my_grainsize < ch.size
      · have := ih ch.size hsm ch rfl hdiv (by omega) c hmem
        rw [hgch] at this
        exact this
      · have hleaf : ch.is_divisible = false := by
          simp only [blocked_range.is_divisible, decide_eq_false_iff_not]
          exact hdiv
        rw [halving_chunks_leaf ch hleaf, List.mem_singleton] at hmem
        rw [hmem, hceil]
        omega
    rcases hc with hc | hc
    · exact key r.do_split.1 g1 (by omega) (by omega) hc
    · exact key r.do_split.2 g2 (by omega) (by omega) hc

/-- C14. For every raster with `W, H ≥ 1` and every `int` grain size `g ≥ 1`, each
tile of the decomposition is non-empty, has at most `g` rows and at most `g`
columns, has at least `ceil(g / 2)` rows when `H > g` and at least
`ceil(g / 2)` columns when `W > g`; a dimension that does not exceed `g` is
never split (every tile spans all of it). -/
theorem tile_size_bounds (W H : Nat) (g : Int) (hW : 1 ≤ W) (hH : 1 ≤ H)
    (hg1 : 1 ≤ g) (hg2 : g ≤ 2147483647) :
    ∃ tiles : List blocked_range2d,
      (∀ fuel, H + W + 1 ≤ fuel →
        simple_partition fuel (blocked_range2d.make 0 H g 0 W g) = some tiles) ∧
      ∀ t ∈ tiles,
        (1 ≤ t.my_rows.size ∧ (t.my_rows.size : Int) ≤ g) ∧
        (1 ≤ t.my_cols.size ∧ (t.my_cols.size : Int) ≤ g) ∧
        (g < H → ceil_div g.toNat 2 ≤ t.my_rows.size) ∧
        (g < W → ceil_div g.toNat 2 ≤ t.my_cols.size) ∧
        ((H : Int) ≤ g → t.my_rows.my_begin = 0 ∧ t.my_rows.my_end = H) ∧
        ((W : Int) ≤ g → t.my_cols.my_begin = 0 ∧ t.my_cols.my_end = W) := by
  have hgn : 1 ≤ g.toNat := by omega
  obtain ⟨tiles, hsome, hperm⟩ := main_range_tiles W H g hg1 hg2
  obtain ⟨_, bH, _⟩ := halving_chunks_spec H ⟨H, 0, g.toNat⟩ rfl hH hgn
  obtain ⟨_, bW, _⟩ := halving_chunks_spec W ⟨W, 0, g.toNat⟩ rfl hW hgn
  refine ⟨tiles, hsome, ?_⟩
  intro t ht
  obtain ⟨hr, hc⟩ := (mem_tile_grid _ _ t).1 (hperm.mem_iff.1 ht)
  have h1 := bH _ hr
  have h2 := bW _ hc
  simp only at h1 h2
  refine ⟨⟨h1.1, by omega⟩, ⟨h2.1, by omega⟩, ?_, ?_, ?_, ?_⟩
  · intro hlt
    exact halving_chunks_lower H ⟨H, 0, g.toNat⟩ rfl (by simp only; omega) hgn _ hr
  · intro hlt
    exact halving_chunks_lower W ⟨W, 0, g.toNat⟩ rfl (by simp only; omega) hgn _ hc
  · intro hle
    have hleaf : (⟨H, 0, g.toNat⟩ : blocked_range).is_divisible = false := by
      simp only [blocked_range.is_divisible, blocked_range.size, decide_eq_false_iff_not]
      omega
    rw [halving_chunks_leaf _ hleaf, List.mem_singleton] at hr
    rw [hr]
    exact ⟨rfl, rfl⟩
  · intro hle
    have hleaf : (⟨W, 0, g.toNat⟩ : blocked_range).is_divisible = false := by
      simp only [blocked_range.is_divisible, blocked_range.size, decide_eq_false_iff_not]
      omega
    rw [halving_chunks_leaf _ hleaf, List.mem_singleton] at hc
    rw [hc]
    exact ⟨rfl, rfl⟩

/-- C14 at a raster of 5 columns and 3 rows with grain size 4. -/
theorem tile_size_bounds_witness :
    ∃ tiles : List blocked_range2d,
      (∀ fuel, 3 + 5 + 1 ≤ fuel →
        simple_partition fuel (blocked_range2d.make 0 3 4 0 5 4) = some tiles) ∧
      ∀ t ∈ tiles,
        (1 ≤ t.my_rows.size ∧ (t.my_rows.size : Int) ≤ 4) ∧
        (1 ≤ t.my_cols.size ∧ (t.my_cols.size : Int) ≤ 4) ∧
        ((4 : Int) < (3 : Nat) → ceil_div (4 : Int).toNat 2 ≤ t.my_rows.size) ∧
        ((4 : Int) < (5 : Nat) → ceil_div (4 : Int).toNat 2 ≤ t.my_cols.size) ∧
        (((3 : Nat) : Int) ≤ 4 → t.my_rows.my_begin = 0 ∧ t.my_rows.my_end = 3) ∧
        (((5 : Nat) : Int) ≤ 4 → t.my_cols.my_begin = 0 ∧ t.my_cols.my_end = 5) :=
  tile_size_bounds 5 3 4 (by decide) (by decide) (by decide) (by decide)

/-! ## C15: the task counts of the configured sweep -/

theorem tiles_of_length {C : Type} (cfg : Config C) (g : Int)
    (hW : 1 ≤ cfg.display_width) (hH : 1 ≤ cfg.display_height)
    (hg1 : 1 ≤ g) (hg2 : g ≤ 2147483647) :
    (tiles_of cfg g).length =
      (halving_chunks ⟨cfg.display_height, 0, g.toNat⟩).length *
        (halving_chunks ⟨cfg.display_width, 0, g.toNat⟩).length := by
  obtain ⟨tiles, hsome, hperm⟩ := main_range_tiles cfg.display_width cfg.display_height g hg1 hg2
  obtain ⟨hsome2, _, _⟩ := main_tiles_spec cfg g hW hH hg1 hg2
  have h1 := hsome _ (le_refl _)
  have h2 : simple_partition (cfg.display_height + cfg.display_width + 1)
      (blocked_range2d.make 0 cfg.display_height g 0 cfg.display_width g) =
      some (tiles_of cfg g) := hsome2 _ (le_refl _)
  rw [h1, Option.some.injEq] at h2
  rw [← h2, hperm.length_eq, tile_grid_length]

theorem halving_chunks_800 :
    (halving_chunks ⟨800, 0, 8⟩).length = 128 ∧ (halving_chunks ⟨800, 0, 16⟩).length = 64 ∧
    (halving_chunks ⟨800, 0, 32⟩).length = 32 ∧ (halving_chunks ⟨800, 0, 64⟩).length = 16 ∧
    (halving_chunks ⟨800, 0, 128⟩).length = 8 ∧ (halving_chunks ⟨800, 0, 256⟩).length = 4 := by
  refine ⟨?_, ?_, ?_, ?_, ?_, ?_⟩ <;>
    simp [halving_chunks, blocked_range.is_divisible, blocked_range.size, blocked_range.do_split]

theorem tiles_of_main_lengths {R C : Type} (A : Arith R C) :
    (tiles_of (main_config A) 8).length = 16384 ∧ (tiles_of (main_config A) 16).length = 4096 ∧
    (tiles_of (main_config A) 32).length = 1024 ∧ (tiles_of (main_config A) 64).length = 256 ∧
    (tiles_of (main_config A) 128).length = 64 ∧ (tiles_of (main_config A) 256).length = 16 := by
  obtain ⟨hW, hH, _, _⟩ := main_config_ok A
  obtain ⟨c8, c16, c32, c64, c128, c256⟩ := halving_chunks_800
  have h8 : (tiles_of (main_config A) 8).length =
      (halving_chunks ⟨800, 0, 8⟩).length * (halving_chunks ⟨800, 0, 8⟩).length :=
    tiles_of_length (main_config A) 8 hW hH (by decide) (by decide)
  have h16 : (tiles_of (main_config A) 16).length =
      (halving_chunks ⟨800, 0, 16⟩).length * (halving_chunks ⟨800, 0, 16⟩).length :=
    tiles_of_length (main_config A) 16 hW hH (by decide) (by decide)
  have h32 : (tiles_of (main_config A) 32).length =
      (halving_chunks ⟨800, 0, 32⟩).length * (halving_chunks ⟨800, 0, 32⟩).length :=
    tiles_of_length (main_config A) 32 hW hH (by decide) (by decide)
  have h64 : (tiles_of (main_config A) 64).length =
      (halving_chunks ⟨800, 0, 64⟩).length * (halving_chunks ⟨800, 0, 64⟩).length :=
    tiles_of_length (main_config A) 64 hW hH (by decide) (by decide)
  have h128 : (tiles_of (main_config A) 128).length =
      (halving_chunks ⟨800, 0, 128⟩).length * (halving_chunks ⟨800, 0, 128⟩).length :=
    tiles_of_length (main_config A) 128 hW hH (by decide) (by decide)
  have h256 : (tiles_of (main_config A) 256).length =
      (halving_chunks ⟨800, 0, 256⟩).length * (halving_chunks ⟨800, 0, 256⟩).length :=
    tiles_of_length (main_config A) 256 hW hH (by decide) (by decide)
  rw [h8, h16, h32, h64, h128, h256, c8, c16, c32, c64, c128, c256]
  exact ⟨rfl, rfl, rfl, rfl, rfl, rfl⟩

theorem results_mk {R : Type} (rows : List (ReportRow R)) (img : Image) :
    (MainOutput.mk rows img).results = rows := rfl

/-- C15. Given enough fuel, the report `main` writes for the `800 × 800` raster
has the task counts 16384, 4096, 1024, 256, 64 and 16 for the grain sizes 8,
16, 32, 64, 128 and 256: repeated halving cuts 800 pixels into 128, 64, 32,
16, 8 and 4 chunks per dimension. -/
theorem report_task_counts {R C : Type} (A : Arith R C) (now : Nat → R) (fuel : Nat)
    (hf : 1601 ≤ fuel) :
    (∃ out, main A now fuel = some out ∧
      out.results.map (fun row => (row.grain, row.task_count)) =
        [(8, 16384), (16, 4096), (32, 1024), (64, 256), (128, 64), (256, 16)]) ∧
    (halving_chunks ⟨800, 0, 8⟩).length = 128 ∧ (halving_chunks ⟨800, 0, 16⟩).length = 64 ∧
    (halving_chunks ⟨800, 0, 32⟩).length = 32 ∧ (halving_chunks ⟨800, 0, 64⟩).length = 16 ∧
    (halving_chunks ⟨800, 0, 128⟩).length = 8 ∧ (halving_chunks ⟨800, 0, 256⟩).length = 4 := by
  refine ⟨?_, halving_chunks_800⟩
  obtain ⟨l8, l16, l32, l64, l128, l256⟩ := tiles_of_main_lengths A
  refine ⟨⟨expected_rows A (main_config A) now 0 [8, 16, 32, 64, 128, 256],
      (fresh_render A (main_config A) 256).image⟩, (main_eq A now fuel hf).1, ?_⟩
  rw [results_mk]
  simp only [expected_rows, List.map_cons, List.map_nil, l8, l16, l32, l64, l128, l256]
  rfl

/-- C15 in exact arithmetic, with every clock reading 0 and fuel 1601. -/
theorem report_task_counts_witness :
    (∃ out, main exactArith (fun _ => (0 : ℚ)) 1601 = some out ∧
      out.results.map (fun row => (row.grain, row.task_count)) =
        [(8, 16384), (16, 4096), (32, 1024), (64, 256), (128, 64), (256, 16)]) ∧
    (halving_chunks ⟨800, 0, 8⟩).length = 128 ∧ (halving_chunks ⟨800, 0, 16⟩).length = 64 ∧
    (halving_chunks ⟨800, 0, 32⟩).length = 32 ∧ (halving_chunks ⟨800, 0, 64⟩).length = 16 ∧
    (halving_chunks ⟨800, 0, 128⟩).length = 8 ∧ (halving_chunks ⟨800, 0, 256⟩).length = 4 :=
  report_task_counts exactArith (fun _ => (0 : ℚ)) 1601 (by decide)

/-! ## C16: which counts are coloured black -/

/-- C16. For every count `k ≥ 0`, `to_color(k)` is pure black exactly when
`k ≥ 256` or `k` is a multiple of 128 (that is `k = 0` or `k = 128` below
256); so a point with `mandelbrot = 0` or `mandelbrot = 128` gets the colour
of a point that never escapes (`mandelbrot = 256`). -/
theorem to_color_black_iff (k : Int) (h0 : 0 ≤ k) :
    (to_color k = Color.Black ↔ (256 ≤ k ∨ k % 128 = 0)) ∧
    (to_color k = Color.Black ↔ (256 ≤ k ∨ k = 0 ∨ k = 128)) ∧
    (∀ (R C : Type) (A : Arith R C) (c : C),
      (mandelbrot A c = 0 ∨ mandelbrot A c = 128) →
        to_color (mandelbrot A c) = to_color 256) := by
  have key : to_color k = Color.Black ↔ (256 ≤ k ∨ k % 128 = 0) := by
    by_cases hk : k < 256
    · simp only [to_color, toUint8, hk, if_true, Color.Black, Color.mk.injEq, and_true]
      omega
    · simp only [to_color, hk, if_false, true_iff]
      omega
  refine ⟨key, ?_, ?_⟩
  · rw [key]
    omega
  · intro R C A c h
    rcases h with h | h <;> rw [h] <;> decide

/-- C16 at `k = 128`: `1280 mod 256 = 0`. -/
theorem to_color_black_iff_witness :
    (to_color 128 = Color.Black ↔ ((256 : Int) ≤ 128 ∨ (128 : Int) % 128 = 0)) ∧
    (to_color 128 = Color.Black ↔ ((256 : Int) ≤ 128 ∨ (128 : Int) = 0 ∨ (128 : Int) = 128)) ∧
    (∀ (R C : Type) (A : Arith R C) (c : C),
      (mandelbrot A c = 0 ∨ mandelbrot A c = 128) →
        to_color (mandelbrot A c) = to_color 256) :=
  to_color_black_iff 128 (by decide)

/-! ## C17: which pixels are white -/

theorem to_color_not_white (k : Int) :
    to_color k ≠ Color.White ∧ (to_color k).g = 0 ∧ (to_color k).b = 0 := by
  by_cases hk : k < 256
  · simp [to_color, hk, Color.White]
  · simp [to_color, hk, Color.White, Color.Black]

/-- C17. `to_color` never gives the grid colour: its green and blue channels
are 0, those of white are 255.  Hence after one complete render (raster with
`W, H ≥ 1`, `int` grain size `g ≥ 1`, enough fuel, any starting image of the
size of the raster) every pixel of the raster lies in a tile, and it is white
if and only if it is on the first row or the first column of a tile that
contains it. -/
theorem white_iff_tile_edge {R C : Type} (A : Arith R C) (cfg : Config C) (g : Int)
    (hW : 1 ≤ cfg.display_width) (hH : 1 ≤ cfg.display_height)
    (hg1 : 1 ≤ g) (hg2 : g ≤ 2147483647) (fuel : Nat)
    (hf : cfg.display_height + cfg.display_width + 1 ≤ fuel) (st : RenderState)
    (hv : st.image.valid cfg.display_width cfg.display_height) :
    (∀ k : Int, to_color k ≠ Color.White ∧ (to_color k).g = 0 ∧ (to_color k).b = 0) ∧
    Color.White = ⟨255, 255, 255, 255⟩ ∧
    ∃ tiles st2, simple_partition fuel (main_range cfg g) = some tiles ∧
      parallel_for A cfg fuel (main_range cfg g) st = some st2 ∧
      ∀ column row, column < cfg.display_width → row < cfg.display_height →
        (∃ t ∈ tiles, t.contains row column = true) ∧
        ∀ t ∈ tiles, t.contains row column = true →
          (st2.image.getPixel column row = Color.White ↔
            (row = t.my_rows.my_begin ∨ column = t.my_cols.my_begin)) := by
  obtain ⟨hsome, _, hcount⟩ := main_tiles_spec cfg g hW hH hg1 hg2
  refine ⟨to_color_not_white, rfl, tiles_of cfg g, run_tiles A cfg (tiles_of cfg g) st,
    hsome fuel hf, parallel_for_main A cfg g hW hH hg1 hg2 fuel hf st, ?_⟩
  intro x y hx hy
  constructor
  · have hpos : 0 < (tiles_of cfg g).countP (fun t => t.contains y x) := by
      rw [hcount y x hy hx]
      exact Nat.one_pos
    exact List.countP_pos_iff.1 hpos
  · intro t ht hc
    rw [render_pixel A cfg g hW hH hg1 hg2 st hv x y hx hy t ht hc, tile_color]
    by_cases hedge : y = t.my_rows.my_begin ∨ x = t.my_cols.my_begin
    · rw [if_pos hedge]
      exact ⟨fun _ => hedge, fun _ => rfl⟩
    · rw [if_neg hedge]
      exact ⟨fun h => absurd h (to_color_not_white _).1, fun h => absurd h hedge⟩

/-- C17 in exact arithmetic for a raster of 5 columns and 3 rows, the viewport
of `main`, grain size 2 and a fresh image. -/
theorem white_iff_tile_edge_witness :
    (∀ k : Int, to_color k ≠ Color.White ∧ (to_color k).g = 0 ∧ (to_color k).b = 0) ∧
    Color.White = ⟨255, 255, 255, 255⟩ ∧
    ∃ tiles st2,
      simple_partition 9 (main_range (⟨5, 3, (-2.2, 1.5), (0.8, -1.5), [2]⟩ : Config (ℚ × ℚ)) 2)
        = some tiles ∧
      parallel_for exactArith ⟨5, 3, (-2.2, 1.5), (0.8, -1.5), [2]⟩ 9
        (main_range (⟨5, 3, (-2.2, 1.5), (0.8, -1.5), [2]⟩ : Config (ℚ × ℚ)) 2)
        ⟨Image.create 5 3, 0⟩ = some st2 ∧
      ∀ column row, column < 5 → row < 3 →
        (∃ t ∈ tiles, t.contains row column = true) ∧
        ∀ t ∈ tiles, t.contains row column = true →
          (st2.image.getPixel column row = Color.White ↔
            (row = t.my_rows.my_begin ∨ column = t.my_cols.my_begin)) :=
  white_iff_tile_edge exactArith ⟨5, 3, (-2.2, 1.5), (0.8, -1.5), [2]⟩ 2 (by decide) (by decide)
    (by decide) (by decide) 9 (by decide) ⟨Image.create 5 3, 0⟩ (create_valid 5 3)

end MandelbrotPar

namespace life

/-! ## C19: the assertions of `World::cell` -/

theorem torus_index_bounds (N i j : Int) (hi0 : 0 ≤ i) (hi : i < N) (hj0 : 0 ≤ j) (hj : j < N) :
    0 ≤ i * N + j ∧ i * N + j < N * N := by
  have h1 : 0 ≤ i * N := Int.mul_nonneg hi0 (by omega)
  have h2 : i * N ≤ (N - 1) * N := Int.mul_le_mul_of_nonneg_right (by omega) (by omega)
  have h3 : (N - 1) * N = N * N - N := by ring
  constructor
  · omega
  · omega

theorem wrap32_eq (x : Int) (h1 : -2147483648 ≤ x) (h2 : x ≤ 2147483647) : wrap32 x = x := by
  unfold wrap32
  omega

/-- A side whose square is an `int` is at most 46340. -/
theorem side_bound (N : Int) (hN : 1 ≤ N) (h : N * N ≤ 2147483647) : N ≤ 46340 := by
  have hpos : 0 ≤ N := by omega
  by_contra hc
  have h1 : (46341 : Int) * 46341 ≤ N * N :=
    Int.mul_le_mul (by omega) (by omega) (by omega) (by omega)
  omega

/-- The wrapped index `(r + N) % N` of `cell`, computed in `int`, is `r mod N`
as long as `r + N` is an `int`. -/
theorem wrapped_index_eq (N : Int) (hN : 1 ≤ N) (r : Int) (hr : -N ≤ r)
    (hr2 : r ≤ 2147483647 - N) : Int.tmod (wrap32 (r + N)) N = r % N := by
  have hpos : 0 ≤ N := by omega
  rw [wrap32_eq _ (by omega) (by omega), Int.tmod_eq_emod (by omega) (by omega),
    Int.add_emod_self]

/-- For a world of side `N ≥ 1` and `-N ≤ r, c ≤ INT_MAX - N`, both assertions
of `cell` hold and the index is that of row `r mod N`, column `c mod N`. -/
theorem index_eq (w : World) (N : Int) (hw : w.wf N) (hN : 1 ≤ N) (r c : Int)
    (hr : -N ≤ r) (hr2 : r ≤ 2147483647 - N) (hc : -N ≤ c) (hc2 : c ≤ 2147483647 - N) :
    w.index r c = some ((r % N) * N + c % N).toNat ∧
    (0 ≤ r % N ∧ r % N < N ∧ 0 ≤ c % N ∧ c % N < N) ∧
    (0 ≤ (r % N) * N + c % N ∧ (r % N) * N + c % N < (w.m_grid.length : Int)) := by
  obtain ⟨hs, hl, hmax⟩ := hw
  have er := wrapped_index_eq N hN r hr hr2
  have ec := wrapped_index_eq N hN c hc hc2
  have b1 : 0 ≤ r % N := Int.emod_nonneg r (by omega)
  have b2 : r % N < N := Int.emod_lt_of_pos r (by omega)
  have b3 : 0 ≤ c % N := Int.emod_nonneg c (by omega)
  have b4 : c % N < N := Int.emod_lt_of_pos c (by omega)
  obtain ⟨b5, b6⟩ := torus_index_bounds N (r % N) (c % N) b1 b2 b3 b4
  have b7 : 0 ≤ r % N * N := Int.mul_nonneg b1 (by omega)
  have ew1 : wrap32 (r % N * N) = r % N * N := wrap32_eq _ (by omega) (by omega)
  have ew2 : wrap32 (r % N * N + c % N) = r % N * N + c % N :=
    wrap32_eq _ (by omega) (by omega)
  have ew3 : wrap32 (N * N) = N * N :=
    wrap32_eq _ (by have := Int.mul_nonneg (show 0 ≤ N by omega) (show 0 ≤ N by omega); omega)
      hmax
  refine ⟨?_, ⟨b1, b2, b3, b4⟩, b5, by rw [hl]; exact b6⟩
  unfold World.index
  simp only [hs, er, ec, hl, ew1, ew2, ew3]
  rw [if_pos ⟨b1, b2, b3, b4⟩, if_pos ⟨b5, b6⟩]

theorem cell_eq (w : World) (N : Int) (hw : w.wf N) (hN : 1 ≤ N) (r c : Int)
    (hr : -N ≤ r) (hr2 : r ≤ 2147483647 - N) (hc : -N ≤ c) (hc2 : c ≤ 2147483647 - N) :
    w.cell r c = some (w.torus r c) := by
  obtain ⟨h1, _, h3, h4⟩ := index_eq w N hw hN r c hr hr2 hc hc2
  have hlt : ((r % N) * N + c % N).toNat < w.m_grid.length := by omega
  unfold World.cell World.torus
  rw [h1, hw.1]
  simp only [Option.some_bind, List.getD_eq_getElem?_getD, List.getElem?_eq_getElem hlt,
    Option.getD_some]

theorem torus_mod (w : World) (N : Int) (hw : w.wf N) (r c : Int) :
    w.torus r c = w.torus (r % N) (c % N) := by
  unfold World.torus
  rw [hw.1, Int.emod_emod_of_dvd r (dvd_refl N), Int.emod_emod_of_dvd c (dvd_refl N)]

/-! ## C18: `evolve` is the rule of Conway -/

theorem toInt_bounds (c : Cell) : 0 ≤ c.toInt ∧ c.toInt ≤ 1 := by
  cases c <;> simp [Cell.toInt]

/-- For a world of side `N ≥ 1` and arguments between `1 - N` and
`INT_MAX - N - 1`, no assertion fails in `neighbours_alive`, and it counts the
`Alive` cells around `(r, c)`. -/
theorem neighbours_eq (w : World) (N : Int) (hw : w.wf N) (hN : 1 ≤ N) (r c : Int)
    (hr : 1 - N ≤ r) (hr2 : r ≤ 2147483646 - N) (hc : 1 - N ≤ c) (hc2 : c ≤ 2147483646 - N) :
    neighbours_alive w r c = some (alive_around w r c) ∧
    0 ≤ alive_around w r c ∧ alive_around w r c ≤ 8 := by
  have hb := side_bound N hN hw.2.2
  have wrm : wrap32 (r + -1) = r - 1 := by rw [wrap32_eq _ (by omega) (by omega)]; omega
  have wr0 : wrap32 (r + 0) = r := by rw [wrap32_eq _ (by omega) (by omega)]; omega
  have wrp : wrap32 (r + 1) = r + 1 := wrap32_eq _ (by omega) (by omega)
  have wcm : wrap32 (c + -1) = c - 1 := by rw [wrap32_eq _ (by omega) (by omega)]; omega
  have wc0 : wrap32 (c + 0) = c := by rw [wrap32_eq _ (by omega) (by omega)]; omega
  have wcp : wrap32 (c + 1) = c + 1 := wrap32_eq _ (by omega) (by omega)
  have h00 := cell_eq w N hw hN r c (by omega) (by omega) (by omega) (by omega)
  have hmm := cell_eq w N hw hN (r - 1) (c - 1) (by omega) (by omega) (by omega) (by omega)
  have hm0 := cell_eq w N hw hN (r - 1) c (by omega) (by omega) (by omega) (by omega)
  have hmp := cell_eq w N hw hN (r - 1) (c + 1) (by omega) (by omega) (by omega) (by omega)
  have h0m := cell_eq w N hw hN r (c - 1) (by omega) (by omega) (by omega) (by omega)
  have h0p := cell_eq w N hw hN r (c + 1) (by omega) (by omega) (by omega) (by omega)
  have hpm := cell_eq w N hw hN (r + 1) (c - 1) (by omega) (by omega) (by omega) (by omega)
  have hp0 := cell_eq w N hw hN (r + 1) c (by omega) (by omega) (by omega) (by omega)
  have hpp := cell_eq w N hw hN (r + 1) (c + 1) (by omega) (by omega) (by omega) (by omega)
  constructor
  · unfold neighbours_alive
    simp only [for_list, wrm, wr0, wrp, wcm, wc0, wcp, h00, hmm, hm0, hmp, h0m, h0p, hpm, hp0,
      hpp, Option.some_bind, Option.map_some', Option.some.injEq]
    unfold alive_around
    omega
  · unfold alive_around
    have b1 := toInt_bounds (w.torus (r - 1) (c - 1))
    have b2 := toInt_bounds (w.torus (r - 1) c)
    have b3 := toInt_bounds (w.torus (r - 1) (c + 1))
    have b4 := toInt_bounds (w.torus r (c - 1))
    have b5 := toInt_bounds (w.torus r (c + 1))
    have b6 := toInt_bounds (w.torus (r + 1) (c - 1))
    have b7 := toInt_bounds (w.torus (r + 1) c)
    have b8 := toInt_bounds (w.torus (r + 1) (c + 1))
    omega

theorem for_list_append {α σ : Type} (step : α → σ → Option σ) (l m : List α) :
    ∀ s, for_list step (l ++ m) s = (for_list step l s).bind (for_list step m) := by
  induction l with
  | nil => intro s; rfl
  | cons a l ih =>
    intro s
    simp only [List.cons_append, for_list]
    cases step a s with
    | none => rfl
    | some s1 => exact ih s1

/-- A loop over `0, ..., n - 1` whose body keeps an invariant gives a result,
and the invariant holds at `n`. -/
theorem for_list_range_inv {σ : Type} (step : Nat → σ → Option σ) (Inv : Nat → σ → Prop)
    (n : Nat) (s : σ) (h0 : Inv 0 s)
    (hstep : ∀ k, k < n → ∀ t, Inv k t → ∃ u, step k t = some u ∧ Inv (k + 1) u) :
    ∃ u, for_list step (List.range n) s = some u ∧ Inv n u := by
  induction n with
  | zero => exact ⟨s, rfl, h0⟩
  | succ n ih =>
    obtain ⟨t, ht, hinv⟩ := ih (fun k hk => hstep k (by omega))
    obtain ⟨u, hu, hinv2⟩ := hstep n (by omega) t hinv
    refine ⟨u, ?_, hinv2⟩
    rw [List.range_succ, for_list_append, ht]
    simp only [Option.some_bind, for_list, hu]

theorem set_cell_eq (w : World) (n : Nat) (hn : 1 ≤ n) (hw : w.wf (n : Int)) (i j : Nat)
    (hi : i < n) (hj : j < n) (v : Cell) :
    w.set_cell (i : Int) (j : Int) v = some { w with m_grid := w.m_grid.set (j + i * n) v } := by
  have hb := side_bound n (by omega) hw.2.2
  obtain ⟨h1, _, _⟩ := index_eq w n hw (by omega) i j (by omega) (by omega) (by omega)
    (by omega)
  have ei : (i : Int) % (n : Int) = i := Int.emod_eq_of_lt (by omega) (by omega)
  have ej : (j : Int) % (n : Int) = j := Int.emod_eq_of_lt (by omega) (by omega)
  have ek : ((i : Int) * (n : Int) + (j : Int)).toNat = j + i * n := by
    have : (i : Int) * (n : Int) + (j : Int) = ((j + i * n : Nat) : Int) := by
      push_cast
      ring
    rw [this, Int.toNat_natCast]
  unfold World.set_cell
  rw [h1, ei, ej, ek]
  rfl

theorem evolve_inv_set (w : World) (n m : Nat) (next : World) (v : Cell)
    (hinv : evolve_inv w (n : Int) m next) (hv : v = rule_at w m) :
    evolve_inv w (n : Int) (m + 1) { next with m_grid := next.m_grid.set m v } := by
  obtain ⟨⟨h1, h2, hmax⟩, h3⟩ := hinv
  refine ⟨⟨h1, by simpa using h2, hmax⟩, ?_⟩
  intro k hk
  have hlen : next.m_grid.length = n * n := by
    have : ((next.m_grid.length : Nat) : Int) = ((n * n : Nat) : Int) := by
      rw [h2]
      push_cast
      rfl
    exact_mod_cast this
  rw [Int.toNat_natCast] at hk
  by_cases hkm : k = m
  · subst hkm
    rw [List.getElem?_set_self (by omega), hv, if_pos (by omega)]
  · rw [List.getElem?_set_ne (fun h => hkm h.symm), h3 k (by rw [Int.toNat_natCast]; exact hk)]
    by_cases hlt : k < m
    · rw [if_pos hlt, if_pos (by omega)]
    · rw [if_neg hlt, if_neg (by omega)]

theorem evolve_inv_skip (w : World) (n m : Nat) (next : World)
    (hinv : evolve_inv w (n : Int) m next) (hv : rule_at w m = Cell.Dead) :
    evolve_inv w (n : Int) (m + 1) next := by
  obtain ⟨hwf, h3⟩ := hinv
  refine ⟨hwf, ?_⟩
  intro k hk
  rw [h3 k hk]
  by_cases hkm : k = m
  · subst hkm
    rw [if_neg (by omega), if_pos (by omega), hv]
  · by_cases hlt : k < m
    · rw [if_pos hlt, if_pos (by omega)]
    · rw [if_neg hlt, if_neg (by omega)]

theorem rule_at_eq (w : World) (n : Nat) (hw : w.wf (n : Int)) (i j : Nat) (hj : j < n) :
    rule_at w (j + i * n) = conway (alive_around w i j) (w.torus i j) := by
  obtain ⟨e1, e2⟩ := MandelbrotPar.index_div_mod n j i hj
  unfold rule_at
  rw [hw.1, Int.toNat_natCast, e1, e2]

/-- One pass of the body of the inner loop of `evolve`, at row `i` and column
`j`: no assertion fails, and position `(i, j)` gets the cell of the rule. -/
theorem evolve_step (w : World) (n : Nat) (hn : 1 ≤ n) (hw : w.wf (n : Int)) (i j : Nat)
    (hi : i < n) (hj : j < n) (next : World) (hinv : evolve_inv w (n : Int) (j + i * n) next) :
    ∃ u, (neighbours_alive w (i : Int) (j : Int)).bind (fun c =>
        if c = 3 then next.set_cell (i : Int) (j : Int) Cell.Alive
        else if c = 2 then (w.cell (i : Int) (j : Int)).bind
          (fun v => next.set_cell (i : Int) (j : Int) v)
        else some next) = some u ∧
      evolve_inv w (n : Int) (j + i * n + 1) u := by
  have hb := side_bound n (by omega) hw.2.2
  have hna := (neighbours_eq w n hw (by omega) i j (by omega) (by omega) (by omega)
    (by omega)).1
  have hcell := cell_eq w n hw (by omega) i j (by omega) (by omega) (by omega) (by omega)
  have hrule := rule_at_eq w n hw i j hj
  rw [hna, Option.some_bind]
  by_cases h3 : alive_around w i j = 3
  · rw [if_pos h3, set_cell_eq next n hn hinv.1 i j hi hj]
    refine ⟨_, rfl, evolve_inv_set w n _ next _ hinv ?_⟩
    rw [hrule, conway, if_pos h3]
  · rw [if_neg h3]
    by_cases h2 : alive_around w i j = 2
    · rw [if_pos h2, hcell, Option.some_bind, set_cell_eq next n hn hinv.1 i j hi hj]
      refine ⟨_, rfl, evolve_inv_set w n _ next _ hinv ?_⟩
      rw [hrule, conway, if_neg h3, if_pos h2]
    · rw [if_neg h2]
      refine ⟨next, rfl, evolve_inv_skip w n _ next hinv ?_⟩
      rw [hrule, conway, if_neg h3, if_neg h2]

/-- The constructor builds a world of side `n` with `n * n` cells `Dead`, when
`n * n` is an `int`. -/
theorem create_eq (n : Nat) (hmax : (n : Int) * (n : Int) ≤ 2147483647) :
    World.create (n : Int) = some ⟨(n : Int), List.replicate (n * n) Cell.Dead⟩ := by
  have hnn : (n : Int) * (n : Int) = ((n * n : Nat) : Int) := by push_cast; rfl
  have hw : wrap32 ((n : Int) * (n : Int)) = ((n * n : Nat) : Int) := by
    rw [wrap32_eq _ (by rw [hnn]; omega) hmax, hnn]
  unfold World.create
  simp only [hw, Int.toNat_natCast]
  rw [if_neg (by omega)]

theorem create_inv (w : World) (n : Nat) (hmax : (n : Int) * (n : Int) ≤ 2147483647) :
    evolve_inv w (n : Int) 0 ⟨(n : Int), List.replicate (n * n) Cell.Dead⟩ := by
  refine ⟨⟨rfl, ?_, hmax⟩, ?_⟩
  · simp only [List.length_replicate]
    push_cast
    rfl
  · intro k hk
    rw [Int.toNat_natCast] at hk
    simp only [List.getElem?_replicate, hk, if_true, Nat.not_lt_zero, if_false]

/-- For a world of side `n ≥ 1`, `evolve` gives a result: the constructor
succeeds, no assertion fails and both loops end; every position of the result
holds the cell of the rule. -/
theorem evolve_eq (w : World) (n : Nat) (hn : 1 ≤ n) (hw : w.wf (n : Int)) :
    ∃ next, evolve w = some next ∧ evolve_inv w (n : Int) (n * n) next := by
  have hside : w.side = (n : Int) := hw.1
  have houter := for_list_range_inv
    (fun (i : Nat) next =>
      for_list (fun (j : Nat) next =>
        (neighbours_alive w i j).bind (fun c =>
          if c = 3 then next.set_cell i j Cell.Alive
          else if c = 2 then (w.cell i j).bind (fun v => next.set_cell i j v)
          else some next)) (List.range n) next)
    (fun i next => evolve_inv w (n : Int) (i * n) next) n
    ⟨(n : Int), List.replicate (n * n) Cell.Dead⟩
    (by simpa using create_inv w n hw.2.2)
    (by
      intro i hi t ht
      have hinner := for_list_range_inv
        (fun (j : Nat) next =>
          (neighbours_alive w i j).bind (fun c =>
            if c = 3 then next.set_cell i j Cell.Alive
            else if c = 2 then (w.cell i j).bind (fun v => next.set_cell i j v)
            else some next))
        (fun j next => evolve_inv w (n : Int) (j + i * n) next) n t
        (by simpa using ht)
        (by
          intro j hj u hu
          obtain ⟨u2, h1, h2⟩ := evolve_step w n hn hw i j hi hj u hu
          refine ⟨u2, h1, ?_⟩
          have e : j + 1 + i * n = j + i * n + 1 := by omega
          show evolve_inv w (n : Int) (j + 1 + i * n) u2
          rw [e]
          exact h2)
      obtain ⟨u, h1, h2⟩ := hinner
      refine ⟨u, h1, ?_⟩
      have e : (i + 1) * n = n + i * n := by rw [Nat.add_mul, Nat.one_mul, Nat.add_comm]
      show evolve_inv w (n : Int) ((i + 1) * n) u
      rw [e]
      exact h2)
  obtain ⟨next, h1, h2⟩ := houter
  refine ⟨next, ?_, h2⟩
  unfold evolve
  simp only [hside]
  rw [create_eq n hw.2.2, Option.some_bind, if_neg (by omega), Int.toNat_natCast]
  exact h1

/-- C19, as the code has it. For every world of side `N ≥ 1` (with its `N * N`
cells, `N * N` an `int`) and all `int` values `r, c` with
`-N ≤ r, c ≤ INT_MAX - N`: the sums `r + N` and `c + N` do not overflow, the
wrapped indices `i = (r + N) % N` and `j = (c + N) % N` lie in `[0, N)` and
`i * N + j` lies in `[0, N * N)`, so both assertions of `cell` hold and `cell`
returns an element; `cell(r, c)` is the element `cell(r mod N, c mod N)`.  In
particular, for `0 ≤ i, j < N` every access made by `neighbours_alive`
(arguments in `[-1, N]`) succeeds, and `evolve` runs without a failing
assertion. -/
theorem cell_assertions_hold (w : World) (N : Int) (hw : w.wf N) (hN : 1 ≤ N) (r c : Int)
    (hr : -N ≤ r) (hr2 : r ≤ 2147483647 - N) (hc : -N ≤ c) (hc2 : c ≤ 2147483647 - N) :
    (wrap32 (r + N) = r + N ∧ wrap32 (c + N) = c + N) ∧
    (0 ≤ Int.tmod (wrap32 (r + N)) N ∧ Int.tmod (wrap32 (r + N)) N < N ∧
      0 ≤ Int.tmod (wrap32 (c + N)) N ∧ Int.tmod (wrap32 (c + N)) N < N) ∧
    (0 ≤ wrap32 (wrap32 (Int.tmod (wrap32 (r + N)) N * N) + Int.tmod (wrap32 (c + N)) N) ∧
      wrap32 (wrap32 (Int.tmod (wrap32 (r + N)) N * N) + Int.tmod (wrap32 (c + N)) N) < N * N ∧
      wrap32 (wrap32 (Int.tmod (wrap32 (r + N)) N * N) + Int.tmod (wrap32 (c + N)) N) =
        Int.tmod (wrap32 (r + N)) N * N + Int.tmod (wrap32 (c + N)) N ∧
      wrap32 (w.m_grid.length : Int) = N * N) ∧
    (∃ k v, w.index r c = some k ∧ k < w.m_grid.length ∧ w.cell r c = some v) ∧
    w.index r c = w.index (r % N) (c % N) ∧
    w.cell r c = w.cell (r % N) (c % N) ∧
    (∀ i j : Int, 0 ≤ i → i < N → 0 ≤ j → j < N →
      (∀ di dj : Int, -1 ≤ di → di ≤ 1 → -1 ≤ dj → dj ≤ 1 →
        -1 ≤ i + di ∧ i + di ≤ N ∧ -1 ≤ j + dj ∧ j + dj ≤ N ∧
        wrap32 (i + di) = i + di ∧ wrap32 (j + dj) = j + dj ∧
        ∃ v, w.cell (wrap32 (i + di)) (wrap32 (j + dj)) = some v) ∧
      ∃ n, neighbours_alive w i j = some n) ∧
    (∃ next, evolve w = some next) := by
  have hb := side_bound N hN hw.2.2
  have er := wrapped_index_eq N hN r hr hr2
  have ec := wrapped_index_eq N hN c hc hc2
  obtain ⟨h1, h2, h3, h4⟩ := index_eq w N hw hN r c hr hr2 hc hc2
  have hrm : -N ≤ r % N := by omega
  have hcm : -N ≤ c % N := by omega
  obtain ⟨g1, _, _, _⟩ := index_eq w N hw hN (r % N) (c % N) hrm (by omega) hcm (by omega)
  have hidx : w.index r c = w.index (r % N) (c % N) := by
    rw [h1, g1, Int.emod_emod_of_dvd r (dvd_refl N), Int.emod_emod_of_dvd c (dvd_refl N)]
  have hNN : 0 ≤ N * N := Int.mul_nonneg (by omega) (by omega)
  have hmax : N * N ≤ 2147483647 := hw.2.2
  have b7 : 0 ≤ r % N * N := Int.mul_nonneg h2.1 (by omega)
  have hlt : r % N * N + c % N < N * N := by rw [← hw.2.1]; exact h4
  have ew1 : wrap32 (r % N * N) = r % N * N := wrap32_eq _ (by omega) (by omega)
  have ew2 : wrap32 (r % N * N + c % N) = r % N * N + c % N :=
    wrap32_eq _ (by omega) (by omega)
  have ew3 : wrap32 (w.m_grid.length : Int) = N * N := by
    rw [hw.2.1]
    exact wrap32_eq _ (by omega) hw.2.2
  rw [er, ec, ew1, ew2]
  refine ⟨⟨wrap32_eq _ (by omega) (by omega), wrap32_eq _ (by omega) (by omega)⟩, h2,
    ⟨h3, hlt, rfl, ew3⟩, ?_, hidx, ?_, ?_, ?_⟩
  · exact ⟨_, _, h1, by omega, cell_eq w N hw hN r c hr hr2 hc hc2⟩
  · unfold World.cell
    rw [hidx]
  · intro i j hi0 hi hj0 hj
    constructor
    · intro di dj a1 a2 a3 a4
      have e1 : wrap32 (i + di) = i + di := wrap32_eq _ (by omega) (by omega)
      have e2 : wrap32 (j + dj) = j + dj := wrap32_eq _ (by omega) (by omega)
      refine ⟨by omega, by omega, by omega, by omega, e1, e2, w.torus (i + di) (j + dj), ?_⟩
      rw [e1, e2]
      exact cell_eq w N hw hN (i + di) (j + dj) (by omega) (by omega) (by omega) (by omega)
    · exact ⟨_, (neighbours_eq w N hw hN i j (by omega) (by omega) (by omega) (by omega)).1⟩
  · obtain ⟨n, rfl⟩ := Int.eq_ofNat_of_zero_le (show 0 ≤ N by omega)
    obtain ⟨next, hev, _⟩ := evolve_eq w n (by omega) hw
    exact ⟨next, hev⟩

/-- C19, as amended, at the world of side 2 with the cells of the diagonal
`Alive`, for `r = -2` and `c = 3`. -/
theorem cell_assertions_hold_witness :
    (wrap32 (-2 + 2) = -2 + 2 ∧ wrap32 (3 + 2) = 3 + 2) ∧
    (0 ≤ Int.tmod (wrap32 (-2 + 2)) 2 ∧ Int.tmod (wrap32 (-2 + 2)) 2 < 2 ∧
      0 ≤ Int.tmod (wrap32 (3 + 2)) 2 ∧ Int.tmod (wrap32 (3 + 2)) 2 < 2) ∧
    (0 ≤ wrap32 (wrap32 (Int.tmod (wrap32 (-2 + 2)) 2 * 2) + Int.tmod (wrap32 (3 + 2)) 2) ∧
      wrap32 (wrap32 (Int.tmod (wrap32 (-2 + 2)) 2 * 2) + Int.tmod (wrap32 (3 + 2)) 2) < 2 * 2 ∧
      wrap32 (wrap32 (Int.tmod (wrap32 (-2 + 2)) 2 * 2) + Int.tmod (wrap32 (3 + 2)) 2) =
        Int.tmod (wrap32 (-2 + 2)) 2 * 2 + Int.tmod (wrap32 (3 + 2)) 2 ∧
      wrap32 (((⟨2, [Cell.Alive, Cell.Dead, Cell.Dead, Cell.Alive]⟩ : World).m_grid.length : Nat) : Int) = 2 * 2) ∧
    (∃ k v, World.index ⟨2, [Cell.Alive, Cell.Dead, Cell.Dead, Cell.Alive]⟩ (-2) 3 = some k ∧
      k < (⟨2, [Cell.Alive, Cell.Dead, Cell.Dead, Cell.Alive]⟩ : World).m_grid.length ∧ World.cell ⟨2, [Cell.Alive, Cell.Dead, Cell.Dead, Cell.Alive]⟩ (-2) 3 = some v) ∧
    World.index ⟨2, [Cell.Alive, Cell.Dead, Cell.Dead, Cell.Alive]⟩ (-2) 3 = World.index ⟨2, [Cell.Alive, Cell.Dead, Cell.Dead, Cell.Alive]⟩ (-2 % 2) (3 % 2) ∧
    World.cell ⟨2, [Cell.Alive, Cell.Dead, Cell.Dead, Cell.Alive]⟩ (-2) 3 = World.cell ⟨2, [Cell.Alive, Cell.Dead, Cell.Dead, Cell.Alive]⟩ (-2 % 2) (3 % 2) ∧
    (∀ i j : Int, 0 ≤ i → i < 2 → 0 ≤ j → j < 2 →
      (∀ di dj : Int, -1 ≤ di → di ≤ 1 → -1 ≤ dj → dj ≤ 1 →
        -1 ≤ i + di ∧ i + di ≤ 2 ∧ -1 ≤ j + dj ∧ j + dj ≤ 2 ∧
        wrap32 (i + di) = i + di ∧ wrap32 (j + dj) = j + dj ∧
        ∃ v, World.cell ⟨2, [Cell.Alive, Cell.Dead, Cell.Dead, Cell.Alive]⟩ (wrap32 (i + di)) (wrap32 (j + dj)) = some v) ∧
      ∃ n, neighbours_alive ⟨2, [Cell.Alive, Cell.Dead, Cell.Dead, Cell.Alive]⟩ i j = some n) ∧
    (∃ next, evolve ⟨2, [Cell.Alive, Cell.Dead, Cell.Dead, Cell.Alive]⟩ = some next) :=
  cell_assertions_hold ⟨2, [Cell.Alive, Cell.Dead, Cell.Dead, Cell.Alive]⟩ 2 ⟨rfl, by decide, by decide⟩ (by decide) (-2) 3
    (by decide) (by decide) (by decide) (by decide)

/-- C19 as stated fails near `INT_MAX`. On a world of side 3 with `3 * 3`
cells: for `r = 2147483645 ≥ -3` the sum `r + 3` overflows, the wrapped index
is negative and the first assertion of `cell(2147483645, 1)` fails; and
`cell(2147483647, 2)` passes both assertions but is the element of index 2
(row 0), while `cell(2147483647 mod 3, 2 mod 3)` is the element of index 5
(row 1), a different cell. -/
theorem cell_fails_near_int_max :
    World.wf ⟨3, [Cell.Dead, Cell.Dead, Cell.Dead, Cell.Dead, Cell.Dead, Cell.Alive, Cell.Dead, Cell.Dead, Cell.Dead]⟩ 3 ∧
    ((-3 : Int) ≤ 2147483645 ∧ (-3 : Int) ≤ 1 ∧ (2147483645 : Int) ≤ 2147483647) ∧
    Int.tmod (wrap32 (2147483645 + 3)) 3 = -2 ∧
    World.index ⟨3, [Cell.Dead, Cell.Dead, Cell.Dead, Cell.Dead, Cell.Dead, Cell.Alive, Cell.Dead, Cell.Dead, Cell.Dead]⟩ 2147483645 1 = none ∧
    World.cell ⟨3, [Cell.Dead, Cell.Dead, Cell.Dead, Cell.Dead, Cell.Dead, Cell.Alive, Cell.Dead, Cell.Dead, Cell.Dead]⟩ 2147483645 1 = none ∧
    World.index ⟨3, [Cell.Dead, Cell.Dead, Cell.Dead, Cell.Dead, Cell.Dead, Cell.Alive, Cell.Dead, Cell.Dead, Cell.Dead]⟩ 2147483647 2 = some 2 ∧
    World.index ⟨3, [Cell.Dead, Cell.Dead, Cell.Dead, Cell.Dead, Cell.Dead, Cell.Alive, Cell.Dead, Cell.Dead, Cell.Dead]⟩ (2147483647 % 3) (2 % 3) = some 5 ∧
    World.cell ⟨3, [Cell.Dead, Cell.Dead, Cell.Dead, Cell.Dead, Cell.Dead, Cell.Alive, Cell.Dead, Cell.Dead, Cell.Dead]⟩ 2147483647 2 = some Cell.Dead ∧
    World.cell ⟨3, [Cell.Dead, Cell.Dead, Cell.Dead, Cell.Dead, Cell.Dead, Cell.Alive, Cell.Dead, Cell.Dead, Cell.Dead]⟩ (2147483647 % 3) (2 % 3) = some Cell.Alive := by
  refine ⟨⟨rfl, by decide, by decide⟩, by decide, by decide, by decide, by decide, by decide,
    by decide, by decide, by decide⟩

end life
